import Mathlib

/-!
Verification of the structural-analysis core of the `inliner` package
(`inliner/common.py` and `inliner/targets.py`).

The Python syntax trees manipulated by the code are shallowly embedded as the
nested inductive `Value`: an AST node is a kind tag (the Python class name)
together with its attribute dictionary (`vars(node)`), in insertion order.
Position metadata (`lineno`, `col_offset`, ...) appears as ordinary entries of
that list, exactly as it does in `vars(node)`.  Runtime values handled by the
value literalizer are embedded as `PyObj`; runtime values resolved at call
sites by the target-matching subsystem are embedded as `RtValue`.  Python
exceptions are modelled with `Except PyErr`; a `try/except Exception` block
from the source is modelled by `tryBool`.
-/

/-- Kinds of Python exceptions that the modelled code can raise. -/
inductive PyErr where
  | objConversionException
  | valueError
  | attributeError
  | typeError
  | binasciiError
  | unpicklingError
deriving DecidableEq, Repr

/-- A Python AST value as seen by `compare_ast`: an AST node (its class name
and its `vars()` dictionary as an ordered association list), a list, or a
scalar attribute value (int, string, bool, `None`, bytes). -/
inductive Value where
  | astNode (kind : String) (fields : List (String × Value))
  | vlist (elems : List Value)
  | vint (i : Int)
  | vstr (s : String)
  | vbool (b : Bool)
  | vnone
  | vbytes (bs : List Nat)
deriving Repr

/-- `getattr(node, name)`: the first entry of the attribute dictionary with
the given name.  (A Python object's `vars()` never holds duplicate names.) -/
def lookupField : List (String × Value) → String → Option Value
  | [], _ => Option.none
  | (n, v) :: rest, m => if n == m then some v else lookupField rest m

/-- The attribute names skipped by `compare_ast`
(`lineno, col_offset, ctx, _pp, first_token, last_token, tokens`). -/
def skipNames : List String :=
  ["lineno", "col_offset", "ctx", "_pp", "first_token", "last_token", "tokens"]

mutual

/-- `compare_ast(node1, node2)` from `inliner/common.py`: structural equality.
Returns false on a type mismatch; for AST nodes iterates `vars(node1)`,
skipping `skipNames`, and compares each remaining attribute against
`getattr(node2, name)`; for lists compares element-wise over
`zip(node1, node2)` (which truncates to the shorter list); for scalars uses
value equality.  A `getattr` miss (impossible between instances of the same
Python class, which share an attribute set) is modelled as a non-match. -/
def compare_ast : Value → Value → Bool
  | .astNode k1 f1, v2 =>
    match v2 with
    | .astNode k2 f2 => k1 == k2 && compareFields f1 f2
    | _ => false
  | .vlist l1, v2 =>
    match v2 with
    | .vlist l2 => compareList l1 l2
    | _ => false
  | .vint i, v2 => match v2 with | .vint j => i == j | _ => false
  | .vstr a, v2 => match v2 with | .vstr b => a == b | _ => false
  | .vbool a, v2 => match v2 with | .vbool b => a == b | _ => false
  | .vnone, v2 => match v2 with | .vnone => true | _ => false
  | .vbytes a, v2 => match v2 with | .vbytes b => a == b | _ => false

/-- The `for k, v in vars(node1).items()` loop of `compare_ast`. -/
def compareFields : List (String × Value) → List (String × Value) → Bool
  | [], _ => true
  | (n, v) :: rest, f2 =>
    (skipNames.contains n ||
      (match lookupField f2 n with
       | some v2 => compare_ast v v2
       | Option.none => false)) && compareFields rest f2

/-- `all(itertools.starmap(compare_ast, zip(node1, node2)))`: element-wise
comparison over the zipped (hence truncated) pair of lists. -/
def compareList : List Value → List Value → Bool
  | x :: xs, y :: ys => compare_ast x y && compareList xs ys
  | _, _ => true

end

/-- The attribute names of a node's dictionary, in order. -/
def fieldNames (fs : List (String × Value)) : List String := fs.map Prod.fst

/-- The non-position attribute names of a node's dictionary, in order. -/
def nonSkipNames (fs : List (String × Value)) : List String :=
  (fs.filter (fun nv => !(skipNames.contains nv.1))).map Prod.fst

/-- No duplicates in a list of attribute names. -/
def nodupStr : List String → Bool
  | [] => true
  | x :: rest => !(rest.contains x) && nodupStr rest

mutual

/-- Well-formedness of a tree as a Python object graph: a node's attribute
dictionary has no duplicate names (it models a Python `dict`), recursively in
every compared (non-position) attribute. -/
def wfNames : Value → Bool
  | .astNode _ fs => nodupStr (fieldNames fs) && wfNamesFields fs
  | .vlist l => wfNamesList l
  | _ => true

def wfNamesFields : List (String × Value) → Bool
  | [] => true
  | (n, v) :: rest => (skipNames.contains n || wfNames v) && wfNamesFields rest

def wfNamesList : List Value → Bool
  | [] => true
  | v :: rest => wfNames v && wfNamesList rest

end

/-- The `_fields`-determined attribute layout of the Python `ast` node classes
(Python 3.7) used by the package, restricted to the attributes that
`compare_ast` does not skip.  Two instances of the same `ast` class always
carry these attributes, in this order. -/
def astCoreFields : String → Option (List String)
  | "Module" => some ["body"]
  | "Expr" => some ["value"]
  | "Num" => some ["n"]
  | "Str" => some ["s"]
  | "Bytes" => some ["s"]
  | "NameConstant" => some ["value"]
  | "Name" => some ["id"]
  | "Load" => some []
  | "Store" => some []
  | "Attribute" => some ["value", "attr"]
  | "Call" => some ["func", "args", "keywords"]
  | "keyword" => some ["arg", "value"]
  | "BinOp" => some ["left", "op", "right"]
  | "UnaryOp" => some ["op", "operand"]
  | "Add" => some []
  | "Sub" => some []
  | "Mult" => some []
  | "Div" => some []
  | "USub" => some []
  | "Tuple" => some ["elts"]
  | "List" => some ["elts"]
  | "Set" => some ["elts"]
  | "Dict" => some ["keys", "values"]
  | "Subscript" => some ["value", "slice"]
  | "Index" => some ["value"]
  | "Slice" => some ["lower", "upper", "step"]
  | "FunctionDef" => some ["name", "args", "body", "decorator_list", "returns"]
  | "Assign" => some ["targets", "value"]
  | _ => Option.none

mutual

/-- A tree whose nodes are genuine instances of the Python `ast` classes: each
node's non-position attributes are exactly the `_fields` of its class, its
attribute names are duplicate-free, and the same holds recursively in every
compared attribute. -/
def wfShape : Value → Bool
  | .astNode k fs =>
    (astCoreFields k == some (nonSkipNames fs)) && nodupStr (fieldNames fs) &&
      wfShapeFields fs
  | .vlist l => wfShapeList l
  | _ => true

def wfShapeFields : List (String × Value) → Bool
  | [] => true
  | (n, v) :: rest => (skipNames.contains n || wfShape v) && wfShapeFields rest

def wfShapeList : List Value → Bool
  | [] => true
  | v :: rest => wfShape v && wfShapeList rest

end

mutual

/-- Rewrite only the position-metadata attributes of every node of a tree,
leaving all compared attributes untouched.  Two trees `v` and
`perturbMeta g v` differ at most in position metadata. -/
def perturbMeta (g : String → Value → Value) : Value → Value
  | .astNode k fs => .astNode k (perturbFields g fs)
  | .vlist l => .vlist (perturbList g l)
  | .vint i => .vint i
  | .vstr s => .vstr s
  | .vbool b => .vbool b
  | .vnone => .vnone
  | .vbytes bs => .vbytes bs

def perturbFields (g : String → Value → Value) :
    List (String × Value) → List (String × Value)
  | [] => []
  | (n, v) :: rest =>
    (if skipNames.contains n then (n, g n v) else (n, perturbMeta g v)) ::
      perturbFields g rest

def perturbList (g : String → Value → Value) : List Value → List Value
  | [] => []
  | v :: rest => perturbMeta g v :: perturbList g rest

end

/-! ## The effect-free classifier (`IsEffectFree` / `is_effect_free`) -/

/-- The attributes that `ast.NodeVisitor.generic_visit` never traverses: they
are not in any node's `_fields` (positions live in `_attributes`, the rest are
attributes added by `asttokens`).  Unlike `skipNames` this excludes `ctx`,
which is a genuine field and is visited. -/
def visitSkipNames : List String :=
  ["lineno", "col_offset", "_pp", "first_token", "last_token", "tokens"]

/-- A name expression `Name(id=s, ctx=Load())` as produced by
`parse_expr(s)` (parsed at line 1, column 0). -/
def parsedNameExpr (s : String) : Value :=
  .astNode "Name"
    [("id", .vstr s), ("ctx", .astNode "Load" []),
     ("lineno", .vint 1), ("col_offset", .vint 0)]

/-- An attribute expression `base.attr` as produced by `parse_expr`. -/
def parsedAttrExpr (base attr : String) : Value :=
  .astNode "Attribute"
    [("value", parsedNameExpr base), ("attr", .vstr attr),
     ("ctx", .astNode "Load" []), ("lineno", .vint 1), ("col_offset", .vint 0)]

/-- `IsEffectFree.func_whitelist`: the parsed callee expressions of the
hard-coded pure-callable list. -/
def func_whitelist : List Value :=
  [parsedNameExpr "str", parsedNameExpr "tuple", parsedNameExpr "list",
   parsedNameExpr "int", parsedNameExpr "float",
   parsedAttrExpr "utils" "to_utf8", parsedNameExpr "LooseVersion"]

/-- `IsEffectFree.ast_whitelist`: the node kinds considered obviously free of
side effects. -/
def astWhitelist : List String :=
  ["Num", "Str", "Name", "NameConstant", "Load", "List", "Bytes", "Tuple",
   "Set", "Dict", "Attribute", "BinOp", "UnaryOp", "Index", "Subscript",
   "Slice"]

/-- The `ast.Call` special case of `IsEffectFree.generic_visit`: the callee
`node.func` must be structurally equal to some whitelisted callable. -/
def callCheck (fs : List (String × Value)) : Bool :=
  match lookupField fs "func" with
  | some fn => func_whitelist.any (fun f => compare_ast fn f)
  | Option.none => false

mutual

/-- The visit of a field value by `IsEffectFree.generic_visit`.  On an AST
node: a `FunctionDef` returns immediately (no check, no recursion into the
nested definition); a `Call` keeps the verdict only if its callee is
whitelisted; any other node keeps the verdict only if its kind is
whitelisted; then the node's children are visited.  A list field has its AST
items visited; any other value is ignored.  The result is the conjunction of
every check performed, which equals the final value of the visitor's
`effect_free` flag. -/
def efChild : Value → Bool
  | .astNode k fs =>
    if k == "FunctionDef" then true
    else
      (if k == "Call" then callCheck fs else astWhitelist.contains k) &&
        efFields fs
  | .vlist l => efList l
  | _ => true

/-- Child traversal of `generic_visit`: iterate the node's fields. -/
def efFields : List (String × Value) → Bool
  | [] => true
  | (n, v) :: rest =>
    (visitSkipNames.contains n || efChild v) && efFields rest

def efList : List Value → Bool
  | [] => true
  | v :: rest => efItem v && efList rest

/-- A list item: visited only if it is an AST node (same node visit as in
`efChild`); non-node items are ignored. -/
def efItem : Value → Bool
  | .astNode k fs =>
    if k == "FunctionDef" then true
    else
      (if k == "Call" then callCheck fs else astWhitelist.contains k) &&
        efFields fs
  | _ => true

end

/-- `is_effect_free(node)`: run the visitor and read off its flag. -/
def is_effect_free (node : Value) : Bool := efChild node

mutual

/-- The nodes that force the classifier's verdict to false, in the region the
visitor walks: a non-`Call` node whose kind is outside `astWhitelist`, or a
`Call` whose callee matches no whitelisted callable.  `FunctionDef` nodes are
not counted and not entered (the visitor does not recurse into nested
function definitions). -/
def containsBadChild : Value → Bool
  | .astNode k fs =>
    if k == "FunctionDef" then false
    else
      !(if k == "Call" then callCheck fs else astWhitelist.contains k) ||
        containsBadFields fs
  | .vlist l => containsBadList l
  | _ => false

def containsBadFields : List (String × Value) → Bool
  | [] => false
  | (n, v) :: rest =>
    (!(visitSkipNames.contains n) && containsBadChild v) ||
      containsBadFields rest

def containsBadList : List Value → Bool
  | [] => false
  | v :: rest => containsBadItem v || containsBadList rest

def containsBadItem : Value → Bool
  | .astNode k fs =>
    if k == "FunctionDef" then false
    else
      !(if k == "Call" then callCheck fs else astWhitelist.contains k) ||
        containsBadFields fs
  | _ => false

end

/-- A fragment that the classifier's walk finds objectionable somewhere. -/
def containsBad (node : Value) : Bool := containsBadChild node

mutual

/-- A fragment built solely from whitelisted node kinds (in particular it has
no `Call` and no `FunctionDef`, neither of which is whitelisted). -/
def allWhitelisted : Value → Bool
  | .astNode k fs => astWhitelist.contains k && allWhitelistedFields fs
  | .vlist l => allWhitelistedList l
  | _ => true

def allWhitelistedFields : List (String × Value) → Bool
  | [] => true
  | (_, v) :: rest => allWhitelisted v && allWhitelistedFields rest

def allWhitelistedList : List Value → Bool
  | [] => true
  | v :: rest => allWhitelisted v && allWhitelistedList rest

end

/-! ## The value literalizer (`obj_to_ast` / `can_convert_obj_to_ast`) -/

/-- A Python float, as far as `obj_to_ast` distinguishes floats: positive
infinity, negative infinity, or any finite float (which `obj_to_ast` cannot
convert and whose value is therefore irrelevant here). -/
inductive PyFloat where
  | posInf
  | negInf
  | finite
deriving DecidableEq, BEq, Repr

/-- A Python runtime value given to the value literalizer: the convertible
shapes (tuples, mappings, sequences, type references, integers, strings,
`None`, generic type aliases, floats, bytes) plus `other` for every remaining
unconvertible object. -/
inductive PyObj where
  | int (i : Int)
  | str (s : String)
  | none
  | tuple (elts : List PyObj)
  | dict (items : List (PyObj × PyObj))
  | list (elts : List PyObj)
  | type (name : String)
  | typingAlias
  | float (f : PyFloat)
  | bytes (bs : List Nat)
  | other (desc : String)
deriving Repr

/-- The result of `parse_expr('float("inf")')` (Python 3.7 tree, positions at
line 1): `Call(func=Name("float"), args=[Str("inf")], keywords=[])`. -/
def floatInfExpr : Value :=
  .astNode "Call"
    [("func", .astNode "Name"
        [("id", .vstr "float"), ("ctx", .astNode "Load" []),
         ("lineno", .vint 1), ("col_offset", .vint 0)]),
     ("args", .vlist
        [.astNode "Str"
          [("s", .vstr "inf"), ("lineno", .vint 1), ("col_offset", .vint 6)]]),
     ("keywords", .vlist []),
     ("lineno", .vint 1), ("col_offset", .vint 0)]

mutual

/-- `obj_to_ast(obj)` from `inliner/common.py`.  The dict branch runs
`k, v = unzip([(obj_to_ast(k), obj_to_ast(v)) for k, v in obj.items()])`;
`iterextras.unzip` is `tuple(zip(*l))`, so on an empty dict it returns an
empty tuple and the unpacking raises `ValueError`.  A float that is not
infinite, and any `other` value, reach the final `else` and raise
`ObjConversionException`. -/
def obj_to_ast : PyObj → Except PyErr Value
  | .tuple elts => do
    pure (.astNode "Tuple" [("elts", .vlist (← objList elts))])
  | .dict items => do
    let pairs ← objPairs items
    match pairs with
    | [] => .error .valueError
    | _ =>
      pure (.astNode "Dict"
        [("keys", .vlist (pairs.map Prod.fst)),
         ("values", .vlist (pairs.map Prod.snd))])
  | .list elts => do
    pure (.astNode "List" [("elts", .vlist (← objList elts))])
  | .type name => pure (.astNode "Name" [("id", .vstr name)])
  | .int i => pure (.astNode "Num" [("n", .vint i)])
  | .str s => pure (.astNode "Str" [("s", .vstr s)])
  | .none => pure (.astNode "NameConstant" [("value", .vnone)])
  | .typingAlias => pure (.astNode "NameConstant" [("value", .vnone)])
  | .float f =>
    match f with
    | .posInf => pure floatInfExpr
    | .negInf => pure floatInfExpr
    | .finite => .error .objConversionException
  | .bytes bs => pure (.astNode "Bytes" [("s", .vbytes bs)])
  | .other _ => .error .objConversionException

/-- `map(obj_to_ast, ...)` over the elements of a tuple or list: evaluated
left to right, the first exception propagating. -/
def objList : List PyObj → Except PyErr (List Value)
  | [] => pure []
  | x :: rest => do
    let v ← obj_to_ast x
    let vs ← objList rest
    pure (v :: vs)

/-- The list comprehension of the dict branch: each key then each value,
in item order. -/
def objPairs : List (PyObj × PyObj) → Except PyErr (List (Value × Value))
  | [] => pure []
  | (a, b) :: rest => do
    let ka ← obj_to_ast a
    let va ← obj_to_ast b
    let ps ← objPairs rest
    pure ((ka, va) :: ps)

end

/-- `can_convert_obj_to_ast(obj)`: attempt `obj_to_ast` and catch only
`ObjConversionException`; every other exception propagates. -/
def can_convert_obj_to_ast (obj : PyObj) : Except PyErr Bool :=
  match obj_to_ast obj with
  | .ok _ => .ok true
  | .error .objConversionException => .ok false
  | .error e => .error e

/-- Is a node a `Name` with the given identifier (positions ignored)? -/
def nameIdIs (s : String) : Value → Bool
  | .astNode "Name" fs =>
    match lookupField fs "id" with
    | some (.vstr t) => t == s
    | _ => false
  | _ => false

/-- Is a node a `Str` literal with the given contents (positions ignored)? -/
def strLitIs (s : String) : Value → Bool
  | .astNode "Str" fs =>
    match lookupField fs "s" with
    | some (.vstr t) => t == s
    | _ => false
  | _ => false

mutual

/-- Modelled from the spec: the parser/printer collaborator of §6 composed
with the host's evaluation, i.e. the value obtained by rendering a literal
tree to text (`a2s`, via `astor`), re-parsing it as an expression and
evaluating it.  Covers exactly the literal shapes the value literalizer
emits, plus the parsed library call `float("inf")`, which evaluates to
positive infinity. -/
def evalLit : Value → Option PyObj
  | .astNode "Num" [("n", .vint i)] => some (.int i)
  | .astNode "Str" [("s", .vstr s)] => some (.str s)
  | .astNode "Bytes" [("s", .vbytes bs)] => some (.bytes bs)
  | .astNode "NameConstant" [("value", .vnone)] => some PyObj.none
  | .astNode "Tuple" [("elts", .vlist l)] =>
    match evalLitList l with
    | some os => some (.tuple os)
    | Option.none => Option.none
  | .astNode "List" [("elts", .vlist l)] =>
    match evalLitList l with
    | some os => some (.list os)
    | Option.none => Option.none
  | .astNode "Dict" [("keys", .vlist ks), ("values", .vlist vs)] =>
    match evalLitList ks, evalLitList vs with
    | some ko, some vo =>
      if ko.length == vo.length then some (.dict (ko.zip vo)) else Option.none
    | _, _ => Option.none
  | .astNode "Call" fs =>
    match lookupField fs "func", lookupField fs "args" with
    | some fn, some (.vlist [arg]) =>
      if nameIdIs "float" fn && strLitIs "inf" arg then
        some (.float .posInf)
      else Option.none
    | _, _ => Option.none
  | _ => Option.none

def evalLitList : List Value → Option (List PyObj)
  | [] => some []
  | v :: rest =>
    match evalLit v, evalLitList rest with
    | some o, some os => some (o :: os)
    | _, _ => Option.none

end

mutual

/-- Value equality of embedded Python objects (the host's `==` on the shapes
`PyObj` covers, with container equality element-wise). -/
def pyBEq : PyObj → PyObj → Bool
  | .int i, .int j => i == j
  | .str a, .str b => a == b
  | .none, .none => true
  | .tuple a, .tuple b => pyBEqList a b
  | .dict a, .dict b => pyBEqPairs a b
  | .list a, .list b => pyBEqList a b
  | .type a, .type b => a == b
  | .typingAlias, .typingAlias => true
  | .float a, .float b => a == b
  | .bytes a, .bytes b => a == b
  | .other a, .other b => a == b
  | _, _ => false

def pyBEqList : List PyObj → List PyObj → Bool
  | [], [] => true
  | a :: as, b :: bs => pyBEq a b && pyBEqList as bs
  | _, _ => false

def pyBEqPairs : List (PyObj × PyObj) → List (PyObj × PyObj) → Bool
  | [], [] => true
  | a :: as, b :: bs => pyBEq a.1 b.1 && pyBEq a.2 b.2 && pyBEqPairs as bs
  | _, _ => false

end

/-- The keys of an embedded mapping are pairwise distinct (every genuine
Python dict satisfies this). -/
def keysNodup : List (PyObj × PyObj) → Bool
  | [] => true
  | (k, _) :: rest => !(rest.any (fun kv => pyBEq k kv.1)) && keysNodup rest

mutual

/-- The literalizable values quantified over by the round-trip property:
integers, strings, `None`, tuples of such values, and mappings with such keys
and values (with distinct keys, as in every Python dict). -/
def litv : PyObj → Bool
  | .int _ => true
  | .str _ => true
  | .none => true
  | .tuple l => litvList l
  | .dict ps => keysNodup ps && litvPairs ps
  | .list _ => false
  | .type _ => false
  | .typingAlias => false
  | .float _ => false
  | .bytes _ => false
  | .other _ => false

def litvList : List PyObj → Bool
  | [] => true
  | v :: rest => litv v && litvList rest

def litvPairs : List (PyObj × PyObj) → Bool
  | [] => true
  | (a, b) :: rest => litv a && litv b && litvPairs rest

end

mutual

/-- The value contains no empty mapping anywhere (the shapes on which the
dict branch of `obj_to_ast` can never reach its `ValueError`). -/
def noEmptyDict : PyObj → Bool
  | .tuple l => noEmptyDictList l
  | .dict ps => !ps.isEmpty && noEmptyDictPairs ps
  | .list l => noEmptyDictList l
  | _ => true

def noEmptyDictList : List PyObj → Bool
  | [] => true
  | v :: rest => noEmptyDict v && noEmptyDictList rest

def noEmptyDictPairs : List (PyObj × PyObj) → Bool
  | [] => true
  | (a, b) :: rest => noEmptyDict a && noEmptyDict b && noEmptyDictPairs rest

end

/-! ## The provenance comment codec (`Comment` / `FunctionComment`) -/

/-- `FunctionComment(code, header)`: the provenance record attached to trees. -/
structure FunctionComment where
  code : String
  header : Bool
deriving DecidableEq, Repr

/-- The standard base64 alphabet, as a character of each 6-bit index. -/
def b64chr (n : Nat) : Char :=
  Char.ofNat
    (if n < 26 then 65 + n
     else if n < 52 then 97 + n - 26
     else if n < 62 then 48 + n - 52
     else if n = 62 then 43
     else 47)

/-- The 6-bit value of a base64 alphabet character (`none` outside the
alphabet, in particular for the padding character `=`). -/
def b64val (c : Char) : Option Nat :=
  let n := c.toNat
  if 65 ≤ n ∧ n ≤ 90 then some (n - 65)
  else if 97 ≤ n ∧ n ≤ 122 then some (n - 97 + 26)
  else if 48 ≤ n ∧ n ≤ 57 then some (n - 48 + 52)
  else if n = 43 then some 62
  else if n = 47 then some 63
  else Option.none

/-- `base64.b64encode`, three input bytes to four output characters, with
`=` padding for a trailing group of one or two bytes. -/
def b64encodeChunks : List Nat → List Char
  | [] => []
  | [b0] => [b64chr (b0 / 4), b64chr (b0 % 4 * 16), '=', '=']
  | [b0, b1] =>
    [b64chr (b0 / 4), b64chr (b0 % 4 * 16 + b1 / 16), b64chr (b1 % 16 * 4), '=']
  | b0 :: b1 :: b2 :: rest =>
    b64chr (b0 / 4) :: b64chr (b0 % 4 * 16 + b1 / 16) ::
      b64chr (b1 % 16 * 4 + b2 / 64) :: b64chr (b2 % 64) :: b64encodeChunks rest

/-- `base64.b64encode(...).decode('utf-8')`: the encoded text. -/
def b64encode (bs : List Nat) : String := String.mk (b64encodeChunks bs)

/-- Reassemble bytes from 6-bit values, four values to three bytes, with a
trailing group of two or three values yielding one or two bytes. -/
def dec4 : List Nat → List Nat
  | d0 :: d1 :: d2 :: d3 :: rest =>
    (d0 * 4 + d1 / 16) :: (d1 % 16 * 16 + d2 / 4) :: (d2 % 4 * 64 + d3) ::
      dec4 rest
  | [d0, d1] => [d0 * 4 + d1 / 16]
  | [d0, d1, d2] => [d0 * 4 + d1 / 16, d1 % 16 * 16 + d2 / 4]
  | _ => []

/-- `base64.b64decode`: characters outside the alphabet are discarded; a
number of data characters that is 1 more than a multiple of 4, or data plus
padding not filling whole quadruples, raises `binascii.Error`. -/
def b64decode (s : String) : Except PyErr (List Nat) :=
  if (s.data.filterMap b64val).length % 4 == 1 then .error .binasciiError
  else if ((s.data.filterMap b64val).length +
      s.data.countP (fun c => c == '=')) % 4 != 0 then .error .binasciiError
  else .ok (dec4 (s.data.filterMap b64val))

/-- Each code point of the record's code string as three base-256 digits. -/
def encodeChars : List Char → List Nat
  | [] => []
  | ch :: rest =>
    ch.toNat / 65536 :: ch.toNat / 256 % 256 :: ch.toNat % 256 :: encodeChars rest

/-- Inverse of `encodeChars`; fails on a dangling group or an invalid code
point, as `pickle.loads` fails on corrupted input. -/
def decodeChars : List Nat → Except PyErr (List Char)
  | [] => .ok []
  | a :: b :: c :: rest =>
    if a * 65536 + b * 256 + c < 55296 ∨
        (57344 ≤ a * 65536 + b * 256 + c ∧
          a * 65536 + b * 256 + c < 1114112) then
      match decodeChars rest with
      | .ok cs => .ok (Char.ofNat (a * 65536 + b * 256 + c) :: cs)
      | .error e => .error e
    else .error .unpicklingError
  | _ => .error .unpicklingError

/-- Modelled library behaviour of `pickle.dumps` on a `FunctionComment`: a
reversible serialization to bytes — a leading flag byte for `header` followed
by the code points of `code`. -/
def pickleDumps (c : FunctionComment) : List Nat :=
  (if c.header then 1 else 0) :: encodeChars c.code.data

/-- Modelled library behaviour of `pickle.loads`: inverts `pickleDumps` and
raises on any byte string not produced by it (as `pickle.loads` raises
`UnpicklingError`/`EOFError` on corrupted input, including the empty byte
string). -/
def pickleLoads (bs : List Nat) : Except PyErr FunctionComment :=
  match bs with
  | [] => .error .unpicklingError
  | h :: rest =>
    if h == 0 || h == 1 then
      match decodeChars rest with
      | .ok cs => .ok ⟨String.mk cs, h == 1⟩
      | .error e => .error e
    else .error .unpicklingError

/-- `COMMENT_MARKER` from `inliner/common.py`. -/
def COMMENT_MARKER : String := "__inliner: "

/-- The text of the string literal built by `Comment.to_stmt`: the marker
followed by the base64 of the pickled record. -/
def comment_string (c : FunctionComment) : String :=
  COMMENT_MARKER ++ b64encode (pickleDumps c)

/-- `Comment.to_stmt(self)`: `ast.Expr(ast.Str(comment))`. -/
def Comment.to_stmt (c : FunctionComment) : Value :=
  .astNode "Expr" [("value", .astNode "Str" [("s", .vstr (comment_string c))])]

/-- `Comment.from_str(expr)` on a string literal with text `s` (`expr.s`):
if the text starts with the marker, base64-decode and unpickle the remainder
— with no exception handler, so both decoding steps can raise; otherwise
return `None`. -/
def Comment.from_str (s : String) : Except PyErr (Option FunctionComment) :=
  if COMMENT_MARKER.data.isPrefixOf s.data then
    match b64decode (String.mk (s.data.drop COMMENT_MARKER.data.length)) with
    | .error e => .error e
    | .ok bytes =>
      match pickleLoads bytes with
      | .error e => .error e
      | .ok c => .ok (some c)
  else .ok Option.none

/-! ## The inline-target model (`inliner/targets.py`) -/

/-- A Python class, identified by its name, together with the names in its
method resolution order (itself first, then its ancestors):
`issubclass(a, b)` holds exactly when `b` occurs in `a.__mro__`. -/
structure PyClass where
  name : String
  mro : List String
deriving DecidableEq, Repr

/-- A runtime value resolved at a call site: a class, a bound method (its
underlying function and the receiver's class), a plain function (its identity
and its dotted `__qualname__` segments), an instance of a class, or any other
object. -/
inductive RtValue where
  | cls (c : PyClass)
  | boundMethod (funcId : Nat) (receiverCls : PyClass)
  | function (funcId : Nat) (qualname : List String)
  | instanceOf (c : PyClass)
  | otherVal
deriving DecidableEq, Repr

/-- The `libcst` call-site expression, as far as the matching predicates
inspect it: an attribute access `value.attr`, a bare name, or anything else. -/
inductive CstExpr where
  | attributeNode (value : CstExpr) (attr : String)
  | nameNode (id : String)
  | otherNode
deriving DecidableEq, Repr

/-- An argument to the evaluation collaborator `pass_.eval`: a sub-expression
node or a dotted-path string. -/
inductive EvalArg where
  | exprArg (e : CstExpr)
  | strArg (s : String)
deriving DecidableEq, Repr

/-- `try: ... except Exception: False` around a boolean computation. -/
def tryBool (x : Except PyErr Bool) : Bool :=
  match x with
  | .ok b => b
  | .error _ => false

/-- `self.target == obj` for a class target: class identity. -/
def pyEqRt (c : PyClass) (obj : RtValue) : Bool :=
  match obj with
  | .cls d => c == d
  | _ => false

/-- `issubclass(t, obj)`: true when `obj` is a class occurring in `t`'s MRO
(i.e. `t` is `obj` or a subclass of it); raises `TypeError` when `obj` is not
a class. -/
def issubclassRt (t : PyClass) (obj : RtValue) : Except PyErr Bool :=
  match obj with
  | .cls d => .ok (t.mro.contains d.name)
  | _ => .error .typeError

/-- `isinstance(obj, t)` for a user class `t`: true when `obj` is an instance
of `t` or of a subclass of `t`.  Classes, functions and methods are instances
of builtin types, never of a user-defined target class. -/
def isinstanceRt (obj : RtValue) (t : PyClass) : Bool :=
  match obj with
  | .instanceOf d => d.mro.contains t.name
  | _ => false

/-- `ModuleTarget.should_inline(code, obj)`: look up the defining module of
the resolved value (`inspect.getmodule`, which returns `None` when it cannot
find one — in that case `module.__name__` raises `AttributeError`) and test
segment-wise whether the target's dotted name is a prefix of it. -/
def ModuleTarget.should_inline (getmodule : RtValue → Option String)
    (target : String) (code : CstExpr) (obj : RtValue) : Except PyErr Bool :=
  match getmodule obj with
  | Option.none => .error .attributeError
  | some m =>
    .ok (List.take (target.splitOn ".").length (m.splitOn ".") ==
          target.splitOn ".")

/-- `FunctionTarget.should_inline(code, obj)`: a bound method matches by its
underlying function's identity, a plain function by its own identity,
anything else does not match. -/
def FunctionTarget.should_inline (target : Nat) (code : CstExpr)
    (obj : RtValue) : Except PyErr Bool :=
  .ok (match obj with
       | .boundMethod fid _ => fid == target
       | .function fid _ => fid == target
       | _ => false)

/-- A resolved source span of a call-site node. -/
structure Span where
  startLine : Nat
  startCol : Nat
  endLine : Nat
  endCol : Nat
deriving DecidableEq, Repr

/-- `CursorTarget.should_inline(code, obj)`: no position metadata means no
match; otherwise the stored (line, column) must fall inside the span,
inclusive on both axes. -/
def CursorTarget.should_inline (getPos : CstExpr → Option Span)
    (target : Nat × Nat) (code : CstExpr) (obj : RtValue) : Except PyErr Bool :=
  match getPos code with
  | Option.none => .ok false
  | some pos =>
    .ok (decide (pos.startLine ≤ target.1 ∧ target.1 ≤ pos.endLine ∧
                 pos.startCol ≤ target.2 ∧ target.2 ≤ pos.endCol))

/-- `ClassTarget.should_inline(code, obj)`: the disjunction of the
constructor shape (`self.target == obj or issubclass(self.target, obj)`,
with any exception collapsed to false), the bound-method shape
(`issubclass(self.target, obj.__self__.__class__)`), the unbound-method
shape (resolving the receiver expression or the qualified defining scope via
the evaluation collaborator `peval`, any failure collapsed to false), and the
callable-instance shape (`isinstance(obj, self.target)`).  An evaluation
failure of the collaborator is modelled as `Option.none` and surfaces inside
the `try` blocks as a raised exception. -/
def ClassTarget.should_inline (peval : EvalArg → Option RtValue)
    (target : PyClass) (code : CstExpr) (obj : RtValue) : Except PyErr Bool :=
  let ctor := tryBool (do
    if pyEqRt target obj then pure true else issubclassRt target obj)
  let bound_method :=
    match obj with
    | .boundMethod _ rcv => target.mro.contains rcv.name
    | _ => false
  let unbound_method :=
    match obj with
    | .function _ qualname =>
      match code with
      | .attributeNode base _ =>
        tryBool (do
          match peval (.exprArg base) with
          | Option.none => .error .typeError
          | some clsVal =>
            if isinstanceRt clsVal target then pure true
            else issubclassRt target clsVal)
      | _ =>
        tryBool (do
          match peval (.strArg (String.intercalate "." (qualname.dropLast))) with
          | Option.none => .error .typeError
          | some attr => issubclassRt target attr)
    | _ => false
  let dunder_call := isinstanceRt obj target
  .ok (ctor || bound_method || unbound_method || dunder_call)

/-! ## Helper lemmas -/

/-- The non-position entries of a node's attribute dictionary, in order. -/
def nonSkipFields (fs : List (String × Value)) : List (String × Value) :=
  fs.filter (fun nv => !(skipNames.contains nv.1))

theorem nonSkipNames_eq (fs : List (String × Value)) :
    nonSkipNames fs = fieldNames (nonSkipFields fs) := rfl

theorem list_all_congr {α : Type} {p q : α → Bool} :
    ∀ l : List α, (∀ a ∈ l, p a = q a) → l.all p = l.all q
  | [], _ => rfl
  | x :: xs, h => by
    rw [List.all_cons, List.all_cons, h x (List.mem_cons_self x xs),
      list_all_congr xs (fun a ha => h a (List.mem_cons_of_mem _ ha))]

theorem beq_comm_eq {α : Type} [BEq α] [LawfulBEq α] {a b : α} :
    (a == b) = (b == a) := by
  by_cases h : a = b
  · rw [h]
  · rw [beq_eq_false_iff_ne.2 h]
    rw [beq_eq_false_iff_ne.2 (Ne.symm h)]

theorem nodupStr_iff (l : List String) : nodupStr l = true ↔ l.Nodup := by
  induction l with
  | nil => simp [nodupStr]
  | cons x xs ih =>
    simp [nodupStr, List.nodup_cons, ih, List.contains, List.elem_iff]

theorem lookupField_of_mem :
    ∀ (f : List (String × Value)) (n : String) (v : Value),
      (n, v) ∈ f → nodupStr (fieldNames f) = true → lookupField f n = some v := by
  intro f
  induction f with
  | nil => intro n v h _; cases h
  | cons hd tl ih =>
    intro n v hmem hnd
    obtain ⟨m, w⟩ := hd
    have hnd' : m ∉ fieldNames tl ∧ nodupStr (fieldNames tl) = true := by
      simpa [nodupStr, fieldNames, Bool.and_eq_true, List.contains,
        List.elem_iff] using hnd
    rcases List.mem_cons.1 hmem with heq | hmem'
    · cases heq
      simp [lookupField]
    · have hnm : (m == n) = false := by
        apply beq_eq_false_iff_ne.2
        intro hmn
        subst hmn
        have hm : m ∈ fieldNames tl := by
          have := List.mem_map_of_mem Prod.fst hmem'
          simpa [fieldNames] using this
        exact hnd'.1 hm
      simp [lookupField, hnm, ih n v hmem' hnd'.2]

mutual

theorem compare_ast_refl : ∀ v : Value, wfNames v = true → compare_ast v v = true
  | .astNode k fs, h => by
    have hp : nodupStr (fieldNames fs) = true ∧ wfNamesFields fs = true := by
      simpa [wfNames, Bool.and_eq_true] using h
    have hf := compareFields_refl fs fs hp.1 hp.2 (fun x hx => hx)
    simp [compare_ast, hf]
  | .vlist l, h => by
    have hl : wfNamesList l = true := by simpa [wfNames] using h
    simpa [compare_ast] using compareList_refl l hl
  | .vint i, _ => by simp [compare_ast]
  | .vstr s, _ => by simp [compare_ast]
  | .vbool b, _ => by simp [compare_ast]
  | .vnone, _ => by simp [compare_ast]
  | .vbytes bs, _ => by simp [compare_ast]

theorem compareFields_refl : ∀ f whole : List (String × Value),
    nodupStr (fieldNames whole) = true → wfNamesFields f = true →
    (∀ x, x ∈ f → x ∈ whole) → compareFields f whole = true
  | [], _, _, _, _ => rfl
  | (n, v) :: rest, whole, hnd, hwf, hsub => by
    have hp : (skipNames.contains n || wfNames v) = true ∧
        wfNamesFields rest = true := by
      simpa [wfNamesFields, Bool.and_eq_true] using hwf
    have hrest := compareFields_refl rest whole hnd hp.2
      (fun x hx => hsub x (List.mem_cons_of_mem _ hx))
    have hhead : (skipNames.contains n ||
        (match lookupField whole n with
         | some v2 => compare_ast v v2
         | Option.none => false)) = true := by
      by_cases hskip : skipNames.contains n = true
      · rw [hskip, Bool.true_or]
      · have hv : wfNames v = true := by
          have hor := hp.1
          simp only [Bool.or_eq_true] at hor
          rcases hor with hc | hv
          · exact absurd hc hskip
          · exact hv
        have hlk : lookupField whole n = some v :=
          lookupField_of_mem whole n v (hsub _ (List.mem_cons_self _ _)) hnd
        rw [hlk]
        simp [compare_ast_refl v hv]
    show (compareFields ((n, v) :: rest) whole) = true
    rw [compareFields, Bool.and_eq_true]
    exact ⟨hhead, hrest⟩

theorem compareList_refl : ∀ l : List Value, wfNamesList l = true →
    compareList l l = true
  | [], _ => rfl
  | x :: xs, h => by
    have hp : wfNames x = true ∧ wfNamesList xs = true := by
      simpa [wfNamesList, Bool.and_eq_true] using h
    simp [compareList, compare_ast_refl x hp.1, compareList_refl xs hp.2]

end

theorem perturbFields_names (g : String → Value → Value) :
    ∀ f : List (String × Value), fieldNames (perturbFields g f) = fieldNames f := by
  intro f
  induction f with
  | nil => rfl
  | cons hd tl ih =>
    obtain ⟨n, v⟩ := hd
    by_cases hskip : skipNames.contains n = true
    · rw [perturbFields, if_pos hskip]
      simp only [fieldNames, List.map_cons]
      exact congrArg (List.cons n) (by simpa [fieldNames] using ih)
    · rw [perturbFields, if_neg hskip]
      simp only [fieldNames, List.map_cons]
      exact congrArg (List.cons n) (by simpa [fieldNames] using ih)

theorem lookup_perturbFields (g : String → Value → Value) :
    ∀ (f : List (String × Value)) (n : String) (v : Value),
      (n, v) ∈ f → nodupStr (fieldNames f) = true →
      skipNames.contains n = false →
      lookupField (perturbFields g f) n = some (perturbMeta g v) := by
  intro f
  induction f with
  | nil => intro n v h _ _; cases h
  | cons hd tl ih =>
    intro n v hmem hnd hskip
    obtain ⟨m, w⟩ := hd
    have hnd' : m ∉ fieldNames tl ∧ nodupStr (fieldNames tl) = true := by
      simpa [nodupStr, fieldNames, Bool.and_eq_true, List.contains,
        List.elem_iff] using hnd
    rcases List.mem_cons.1 hmem with heq | hmem'
    · cases heq
      rw [perturbFields, if_neg (by rw [hskip]; simp), lookupField,
        if_pos (by simp : (n == n) = true)]
    · have hnm : (m == n) = false := by
        apply beq_eq_false_iff_ne.2
        intro hmn
        subst hmn
        have hm : m ∈ fieldNames tl := by
          have := List.mem_map_of_mem Prod.fst hmem'
          simpa [fieldNames] using this
        exact hnd'.1 hm
      have ihr := ih n v hmem' hnd'.2 hskip
      by_cases hms : skipNames.contains m = true
      · rw [perturbFields, if_pos hms, lookupField,
          if_neg (by simp [hnm]), ihr]
      · rw [perturbFields, if_neg hms, lookupField,
          if_neg (by simp [hnm]), ihr]

mutual

theorem perturb_both : ∀ (g : String → Value → Value) (v : Value),
    wfNames v = true →
    compare_ast v (perturbMeta g v) = true ∧
      compare_ast (perturbMeta g v) v = true
  | g, .astNode k fs, h => by
    have hp : nodupStr (fieldNames fs) = true ∧ wfNamesFields fs = true := by
      simpa [wfNames, Bool.and_eq_true] using h
    have hf := perturb_both_fields g fs fs hp.1 hp.2 (fun x hx => hx)
    constructor
    · show compare_ast (.astNode k fs) (.astNode k (perturbFields g fs)) = true
      rw [compare_ast, Bool.and_eq_true]
      exact ⟨by simp, hf.1⟩
    · show compare_ast (.astNode k (perturbFields g fs)) (.astNode k fs) = true
      rw [compare_ast, Bool.and_eq_true]
      exact ⟨by simp, hf.2⟩
  | g, .vlist l, h => by
    have hl : wfNamesList l = true := by simpa [wfNames] using h
    have := perturb_both_list g l hl
    exact ⟨by simpa [compare_ast, perturbMeta] using this.1,
           by simpa [compare_ast, perturbMeta] using this.2⟩
  | g, .vint i, _ => by simp [compare_ast, perturbMeta]
  | g, .vstr s, _ => by simp [compare_ast, perturbMeta]
  | g, .vbool b, _ => by simp [compare_ast, perturbMeta]
  | g, .vnone, _ => by simp [compare_ast, perturbMeta]
  | g, .vbytes bs, _ => by simp [compare_ast, perturbMeta]

theorem perturb_both_fields : ∀ (g : String → Value → Value)
    (f whole : List (String × Value)),
    nodupStr (fieldNames whole) = true → wfNamesFields f = true →
    (∀ x, x ∈ f → x ∈ whole) →
    compareFields f (perturbFields g whole) = true ∧
      compareFields (perturbFields g f) whole = true
  | g, [], whole, _, _, _ => ⟨rfl, rfl⟩
  | g, (n, v) :: rest, whole, hnd, hwf, hsub => by
    have hp : (skipNames.contains n || wfNames v) = true ∧
        wfNamesFields rest = true := by
      simpa [wfNamesFields, Bool.and_eq_true] using hwf
    have hrest := perturb_both_fields g rest whole hnd hp.2
      (fun x hx => hsub x (List.mem_cons_of_mem _ hx))
    by_cases hskip : skipNames.contains n = true
    · constructor
      · show compareFields ((n, v) :: rest) (perturbFields g whole) = true
        rw [compareFields, Bool.and_eq_true]
        exact ⟨by rw [hskip, Bool.true_or], hrest.1⟩
      · show compareFields (perturbFields g ((n, v) :: rest)) whole = true
        rw [perturbFields]
        rw [if_pos hskip]
        rw [compareFields, Bool.and_eq_true]
        exact ⟨by rw [hskip, Bool.true_or], hrest.2⟩
    · have hskipf : skipNames.contains n = false := by
        simpa using hskip
      have hv : wfNames v = true := by
        have hor := hp.1
        simp only [Bool.or_eq_true] at hor
        rcases hor with hc | hv
        · exact absurd hc hskip
        · exact hv
      have hvb := perturb_both g v hv
      have hmem : (n, v) ∈ whole := hsub _ (List.mem_cons_self _ _)
      constructor
      · show compareFields ((n, v) :: rest) (perturbFields g whole) = true
        rw [compareFields, Bool.and_eq_true]
        refine ⟨?_, hrest.1⟩
        rw [lookup_perturbFields g whole n v hmem hnd hskipf]
        simp [hvb.1]
      · show compareFields (perturbFields g ((n, v) :: rest)) whole = true
        rw [perturbFields]
        rw [if_neg (by rw [hskipf]; simp)]
        rw [compareFields, Bool.and_eq_true]
        refine ⟨?_, hrest.2⟩
        rw [lookupField_of_mem whole n v hmem hnd]
        simp [hvb.2]

theorem perturb_both_list : ∀ (g : String → Value → Value) (l : List Value),
    wfNamesList l = true →
    compareList l (perturbList g l) = true ∧
      compareList (perturbList g l) l = true
  | g, [], _ => ⟨rfl, rfl⟩
  | g, x :: xs, h => by
    have hp : wfNames x = true ∧ wfNamesList xs = true := by
      simpa [wfNamesList, Bool.and_eq_true] using h
    have hx := perturb_both g x hp.1
    have hxs := perturb_both_list g xs hp.2
    constructor
    · show compareList (x :: xs) (perturbMeta g x :: perturbList g xs) = true
      rw [compareList, Bool.and_eq_true]
      exact ⟨hx.1, hxs.1⟩
    · show compareList (perturbMeta g x :: perturbList g xs) (x :: xs) = true
      rw [compareList, Bool.and_eq_true]
      exact ⟨hx.2, hxs.2⟩

end

theorem sizeOf_filter_le {α : Type} [SizeOf α] (p : α → Bool) (l : List α) :
    sizeOf (l.filter p) ≤ sizeOf l := by
  induction l with
  | nil => simp
  | cons x xs ih =>
    rw [List.filter_cons]
    split <;> simp <;> omega

theorem mem_nonSkipFields {fs : List (String × Value)} {nv : String × Value}
    (h : nv ∈ nonSkipFields fs) :
    nv ∈ fs ∧ skipNames.contains nv.1 = false := by
  have h' := List.mem_filter.1 h
  exact ⟨h'.1, by simpa using h'.2⟩

theorem wfShapeFields_values :
    ∀ f : List (String × Value), wfShapeFields f = true →
      ∀ nv ∈ f, skipNames.contains nv.1 = false → wfShape nv.2 = true := by
  intro f
  induction f with
  | nil => intro _ nv h; cases h
  | cons hd tl ih =>
    intro hwf nv hmem hns
    have hp : (skipNames.contains hd.1 || wfShape hd.2) = true ∧
        wfShapeFields tl = true := by
      obtain ⟨a, b⟩ := hd
      simpa [wfShapeFields, Bool.and_eq_true] using hwf
    rcases List.mem_cons.1 hmem with heq | hmem'
    · subst heq
      have hor := hp.1
      simp only [Bool.or_eq_true] at hor
      rcases hor with hc | hv
      · rw [hns] at hc; cases hc
      · exact hv
    · exact ih hp.2 nv hmem' hns

theorem wfShape_astNode_parts (k : String) (fs : List (String × Value))
    (h : wfShape (.astNode k fs) = true) :
    astCoreFields k = some (nonSkipNames fs) ∧
      nodupStr (fieldNames fs) = true ∧ wfShapeFields fs = true := by
  have h' := h
  simp only [wfShape, Bool.and_eq_true, beq_iff_eq] at h'
  exact ⟨h'.1.1, h'.1.2, h'.2⟩

theorem nodupStr_nonSkip (fs : List (String × Value))
    (h : nodupStr (fieldNames fs) = true) :
    nodupStr (fieldNames (nonSkipFields fs)) = true := by
  rw [nodupStr_iff] at h ⊢
  simp only [fieldNames, nonSkipFields] at h ⊢
  exact List.Nodup.sublist (List.Sublist.map Prod.fst (List.filter_sublist fs)) h

theorem compareFields_eq_nonskip :
    ∀ f whole : List (String × Value),
      compareFields f whole =
        ((nonSkipFields f).all fun nv =>
          match lookupField whole nv.1 with
          | some v2 => compare_ast nv.2 v2
          | Option.none => false) := by
  intro f whole
  induction f with
  | nil => rfl
  | cons hd tl ih =>
    obtain ⟨n, v⟩ := hd
    by_cases hskip : skipNames.contains n = true
    · rw [compareFields, hskip, Bool.true_or, Bool.true_and]
      rw [nonSkipFields, List.filter_cons]
      rw [if_neg (by rw [hskip]; simp)]
      exact ih
    · have hskipf : skipNames.contains n = false := by simpa using hskip
      rw [compareFields, hskipf, Bool.false_or]
      rw [nonSkipFields, List.filter_cons]
      rw [if_pos (by rw [hskipf]; simp)]
      rw [List.all_cons]
      rw [ih]
      rfl

theorem lookup_eq_lookup_nonskip :
    ∀ (f : List (String × Value)) (n : String),
      skipNames.contains n = false →
      lookupField f n = lookupField (nonSkipFields f) n := by
  intro f n hn
  induction f with
  | nil => rfl
  | cons hd tl ih =>
    obtain ⟨m, w⟩ := hd
    by_cases hmn : (m == n) = true
    · have : m = n := beq_iff_eq.1 hmn
      subst this
      rw [lookupField, if_pos hmn]
      rw [nonSkipFields, List.filter_cons, if_pos (by rw [hn]; simp)]
      rw [lookupField, if_pos hmn]
    · have hmn' : (m == n) = false := by simpa using hmn
      by_cases hms : skipNames.contains m = true
      · rw [lookupField, if_neg (by simp [hmn'])]
        rw [nonSkipFields, List.filter_cons, if_neg (by rw [hms]; simp)]
        exact ih
      · have hms' : skipNames.contains m = false := by simpa using hms
        rw [lookupField, if_neg (by simp [hmn'])]
        rw [nonSkipFields, List.filter_cons, if_pos (by rw [hms']; simp)]
        rw [lookupField, if_neg (by simp [hmn'])]
        exact ih

theorem all_lookup_eq_zip :
    ∀ g1 g2 : List (String × Value),
      fieldNames g1 = fieldNames g2 → nodupStr (fieldNames g2) = true →
      (g1.all fun nv =>
        match lookupField g2 nv.1 with
        | some v2 => compare_ast nv.2 v2
        | Option.none => false) =
      ((g1.zip g2).all fun pq => compare_ast pq.1.2 pq.2.2) := by
  intro g1
  induction g1 with
  | nil => intro g2 _ _; rfl
  | cons hd r1 ih =>
    intro g2 hn hnd
    obtain ⟨n, v⟩ := hd
    cases g2 with
    | nil => simp [fieldNames] at hn
    | cons hd2 r2 =>
      obtain ⟨m, w⟩ := hd2
      have hn' : n = m ∧ fieldNames r1 = fieldNames r2 := by
        simpa [fieldNames] using hn
      obtain ⟨rfl, htl⟩ := hn'
      have hnd' : n ∉ fieldNames r2 ∧ nodupStr (fieldNames r2) = true := by
        simpa [nodupStr, fieldNames, Bool.and_eq_true, List.contains,
          List.elem_iff] using hnd
      rw [List.zip_cons_cons, List.all_cons, List.all_cons]
      have hhead : (match lookupField ((n, w) :: r2) n with
          | some v2 => compare_ast v v2
          | Option.none => false) = compare_ast v w := by
        rw [lookupField, if_pos (by simp : (n == n) = true)]
      rw [hhead]
      have hrest : (r1.all fun nv =>
          match lookupField ((n, w) :: r2) nv.1 with
          | some v2 => compare_ast nv.2 v2
          | Option.none => false) =
          (r1.all fun nv =>
          match lookupField r2 nv.1 with
          | some v2 => compare_ast nv.2 v2
          | Option.none => false) := by
        apply list_all_congr
        intro nv hnv
        have hnvn : (n == nv.1) = false := by
          apply beq_eq_false_iff_ne.2
          intro heq
          apply hnd'.1
          have h1 : nv.1 ∈ fieldNames r1 := by
            simpa [fieldNames] using List.mem_map_of_mem Prod.fst hnv
          rw [htl] at h1
          rw [heq]
          exact h1
        rw [lookupField, if_neg (by simp [hnvn])]
      rw [hrest, ih r2 htl hnd'.2]

mutual

theorem compare_ast_symm : ∀ a b : Value,
    wfShape a = true → wfShape b = true → compare_ast a b = compare_ast b a
  | .astNode k1 f1, b, h1, h2 => by
    cases b with
    | astNode k2 f2 =>
      by_cases hk : k1 = k2
      · subst hk
        obtain ⟨hc1, hnd1, hwf1⟩ := wfShape_astNode_parts k1 f1 h1
        obtain ⟨hc2, hnd2, hwf2⟩ := wfShape_astNode_parts k1 f2 h2
        have hnames : nonSkipNames f1 = nonSkipNames f2 :=
          Option.some.inj (hc1.symm.trans hc2)
        have hnames' : fieldNames (nonSkipFields f1) = fieldNames (nonSkipFields f2) := by
          rw [← nonSkipNames_eq, ← nonSkipNames_eq]; exact hnames
        have w1 : ∀ nv ∈ nonSkipFields f1, wfShape nv.2 = true := fun nv hnv =>
          wfShapeFields_values f1 hwf1 nv (mem_nonSkipFields hnv).1
            (mem_nonSkipFields hnv).2
        have w2 : ∀ nv ∈ nonSkipFields f2, wfShape nv.2 = true := fun nv hnv =>
          wfShapeFields_values f2 hwf2 nv (mem_nonSkipFields hnv).1
            (mem_nonSkipFields hnv).2
        show (k1 == k1 && compareFields f1 f2) = (k1 == k1 && compareFields f2 f1)
        rw [compareFields_eq_nonskip f1 f2, compareFields_eq_nonskip f2 f1]
        have e1 : ((nonSkipFields f1).all fun nv =>
            match lookupField f2 nv.1 with
            | some v2 => compare_ast nv.2 v2
            | Option.none => false) =
            ((nonSkipFields f1).all fun nv =>
            match lookupField (nonSkipFields f2) nv.1 with
            | some v2 => compare_ast nv.2 v2
            | Option.none => false) := by
          apply list_all_congr
          intro nv hnv
          rw [lookup_eq_lookup_nonskip f2 nv.1 (mem_nonSkipFields hnv).2]
        have e2 : ((nonSkipFields f2).all fun nv =>
            match lookupField f1 nv.1 with
            | some v2 => compare_ast nv.2 v2
            | Option.none => false) =
            ((nonSkipFields f2).all fun nv =>
            match lookupField (nonSkipFields f1) nv.1 with
            | some v2 => compare_ast nv.2 v2
            | Option.none => false) := by
          apply list_all_congr
          intro nv hnv
          rw [lookup_eq_lookup_nonskip f1 nv.1 (mem_nonSkipFields hnv).2]
        rw [e1, e2]
        rw [all_lookup_eq_zip (nonSkipFields f1) (nonSkipFields f2) hnames'
          (nodupStr_nonSkip f2 hnd2)]
        rw [all_lookup_eq_zip (nonSkipFields f2) (nonSkipFields f1) hnames'.symm
          (nodupStr_nonSkip f1 hnd1)]
        rw [compare_symm_zip (nonSkipFields f1) (nonSkipFields f2) hnames' w1 w2]
      · have e1 : (k1 == k2) = false := beq_eq_false_iff_ne.2 hk
        have e2 : (k2 == k1) = false := beq_eq_false_iff_ne.2 (Ne.symm hk)
        show (k1 == k2 && compareFields f1 f2) = (k2 == k1 && compareFields f2 f1)
        rw [e1, e2, Bool.false_and, Bool.false_and]
    | vlist l2 => rfl
    | vint i => rfl
    | vstr s => rfl
    | vbool bb => rfl
    | vnone => rfl
    | vbytes bs => rfl
  | .vlist l1, b, h1, h2 => by
    cases b with
    | astNode k2 f2 => rfl
    | vlist l2 =>
      have hl1 : wfShapeList l1 = true := by simpa [wfShape] using h1
      have hl2 : wfShapeList l2 = true := by simpa [wfShape] using h2
      show compareList l1 l2 = compareList l2 l1
      exact compareList_symm l1 l2 hl1 hl2
    | vint i => rfl
    | vstr s => rfl
    | vbool bb => rfl
    | vnone => rfl
    | vbytes bs => rfl
  | .vint i, b, _, _ => by
    cases b with
    | vint j => exact beq_comm_eq
    | astNode k2 f2 => rfl
    | vlist l2 => rfl
    | vstr s => rfl
    | vbool bb => rfl
    | vnone => rfl
    | vbytes bs => rfl
  | .vstr s1, b, _, _ => by
    cases b with
    | vstr s2 => exact beq_comm_eq
    | astNode k2 f2 => rfl
    | vlist l2 => rfl
    | vint i => rfl
    | vbool bb => rfl
    | vnone => rfl
    | vbytes bs => rfl
  | .vbool b1, b, _, _ => by
    cases b with
    | vbool b2 => exact beq_comm_eq
    | astNode k2 f2 => rfl
    | vlist l2 => rfl
    | vint i => rfl
    | vstr s => rfl
    | vnone => rfl
    | vbytes bs => rfl
  | .vnone, b, _, _ => by
    cases b <;> rfl
  | .vbytes bs1, b, _, _ => by
    cases b with
    | vbytes bs2 => exact beq_comm_eq
    | astNode k2 f2 => rfl
    | vlist l2 => rfl
    | vint i => rfl
    | vstr s => rfl
    | vbool bb => rfl
    | vnone => rfl
termination_by a b _ _ => sizeOf a
decreasing_by
  all_goals simp_wf
  all_goals (try (have hle1 := sizeOf_filter_le (fun nv : String × Value => !(skipNames.contains nv.1)) f1); try (have hle2 := sizeOf_filter_le (fun nv : String × Value => !(skipNames.contains nv.1)) f2); try simp only [nonSkipFields] at *; omega)

theorem compare_symm_zip : ∀ g1 g2 : List (String × Value),
    fieldNames g1 = fieldNames g2 →
    (∀ nv ∈ g1, wfShape nv.2 = true) → (∀ nv ∈ g2, wfShape nv.2 = true) →
    ((g1.zip g2).all fun pq => compare_ast pq.1.2 pq.2.2) =
      ((g2.zip g1).all fun pq => compare_ast pq.1.2 pq.2.2)
  | [], g2, _, _, _ => by cases g2 <;> rfl
  | (n, v) :: r1, g2, hn, hw1, hw2 => by
    cases g2 with
    | nil => rfl
    | cons hd2 r2 =>
      obtain ⟨m, w⟩ := hd2
      have hn' : n = m ∧ fieldNames r1 = fieldNames r2 := by
        simpa [fieldNames] using hn
      rw [List.zip_cons_cons, List.zip_cons_cons, List.all_cons, List.all_cons]
      rw [compare_ast_symm v w (hw1 _ (List.mem_cons_self _ _))
        (hw2 _ (List.mem_cons_self _ _))]
      rw [compare_symm_zip r1 r2 hn'.2
        (fun nv hnv => hw1 nv (List.mem_cons_of_mem _ hnv))
        (fun nv hnv => hw2 nv (List.mem_cons_of_mem _ hnv))]
termination_by g1 _ _ _ _ => sizeOf g1
decreasing_by
  all_goals simp_wf
  all_goals omega

theorem compareList_symm : ∀ l1 l2 : List Value,
    wfShapeList l1 = true → wfShapeList l2 = true →
    compareList l1 l2 = compareList l2 l1
  | [], l2, _, _ => by cases l2 <;> rfl
  | x :: xs, l2, h1, h2 => by
    cases l2 with
    | nil => rfl
    | cons y ys =>
      have hp1 : wfShape x = true ∧ wfShapeList xs = true := by
        simpa [wfShapeList, Bool.and_eq_true] using h1
      have hp2 : wfShape y = true ∧ wfShapeList ys = true := by
        simpa [wfShapeList, Bool.and_eq_true] using h2
      rw [compareList, compareList]
      rw [compare_ast_symm x y hp1.1 hp2.1, compareList_symm xs ys hp1.2 hp2.2]
termination_by l1 _ _ _ => sizeOf l1
decreasing_by
  all_goals simp_wf
  all_goals omega

end

mutual

theorem efChild_not_bad : ∀ v : Value, efChild v = !(containsBadChild v)
  | .astNode k fs => by
    rw [efChild, containsBadChild]
    by_cases hfd : (k == "FunctionDef") = true
    · rw [if_pos hfd, if_pos hfd]; rfl
    · rw [if_neg hfd, if_neg hfd, efFields_not_bad fs]
      cases (if k == "Call" then callCheck fs else astWhitelist.contains k) <;>
        cases containsBadFields fs <;> rfl
  | .vlist l => by
    rw [efChild, containsBadChild]
    exact efList_not_bad l
  | .vint _ => rfl
  | .vstr _ => rfl
  | .vbool _ => rfl
  | .vnone => rfl
  | .vbytes _ => rfl

theorem efFields_not_bad : ∀ f : List (String × Value),
    efFields f = !(containsBadFields f)
  | [] => rfl
  | (n, v) :: rest => by
    rw [efFields, containsBadFields, efChild_not_bad v, efFields_not_bad rest]
    cases visitSkipNames.contains n <;> cases containsBadChild v <;>
      cases containsBadFields rest <;> rfl

theorem efList_not_bad : ∀ l : List Value, efList l = !(containsBadList l)
  | [] => rfl
  | v :: rest => by
    rw [efList, containsBadList, efItem_not_bad v, efList_not_bad rest]
    cases containsBadItem v <;> cases containsBadList rest <;> rfl

theorem efItem_not_bad : ∀ v : Value, efItem v = !(containsBadItem v)
  | .astNode k fs => by
    rw [efItem, containsBadItem]
    by_cases hfd : (k == "FunctionDef") = true
    · rw [if_pos hfd, if_pos hfd]; rfl
    · rw [if_neg hfd, if_neg hfd, efFields_not_bad fs]
      cases (if k == "Call" then callCheck fs else astWhitelist.contains k) <;>
        cases containsBadFields fs <;> rfl
  | .vlist _ => rfl
  | .vint _ => rfl
  | .vstr _ => rfl
  | .vbool _ => rfl
  | .vnone => rfl
  | .vbytes _ => rfl

end

mutual

theorem allWL_ef : ∀ v : Value, allWhitelisted v = true → efChild v = true
  | .astNode k fs, h => by
    have hp : astWhitelist.contains k = true ∧
        allWhitelistedFields fs = true := by
      simpa [allWhitelisted, Bool.and_eq_true] using h
    have hknotF : (k == "FunctionDef") = false := by
      apply beq_eq_false_iff_ne.2
      intro he
      subst he
      exact absurd hp.1 (by decide)
    have hknotC : (k == "Call") = false := by
      apply beq_eq_false_iff_ne.2
      intro he
      subst he
      exact absurd hp.1 (by decide)
    rw [efChild, if_neg (by simp [hknotF]), if_neg (by simp [hknotC]),
      hp.1, allWL_efFields fs hp.2]
    rfl
  | .vlist l, h => by
    rw [efChild]
    exact allWL_efList l (by simpa [allWhitelisted] using h)
  | .vint _, _ => rfl
  | .vstr _, _ => rfl
  | .vbool _, _ => rfl
  | .vnone, _ => rfl
  | .vbytes _, _ => rfl

theorem allWL_efFields : ∀ f : List (String × Value),
    allWhitelistedFields f = true → efFields f = true
  | [], _ => rfl
  | (n, v) :: rest, h => by
    have hp : allWhitelisted v = true ∧ allWhitelistedFields rest = true := by
      simpa [allWhitelistedFields, Bool.and_eq_true] using h
    rw [efFields, Bool.and_eq_true]
    refine ⟨?_, allWL_efFields rest hp.2⟩
    rw [allWL_ef v hp.1]
    exact Bool.or_true _

theorem allWL_efList : ∀ l : List Value,
    allWhitelistedList l = true → efList l = true
  | [], _ => rfl
  | v :: rest, h => by
    have hp : allWhitelisted v = true ∧ allWhitelistedList rest = true := by
      simpa [allWhitelistedList, Bool.and_eq_true] using h
    rw [efList, Bool.and_eq_true]
    refine ⟨?_, allWL_efList rest hp.2⟩
    cases v with
    | astNode k fs => exact allWL_ef _ hp.1
    | vlist l2 => rfl
    | vint i => rfl
    | vstr s => rfl
    | vbool b => rfl
    | vnone => rfl
    | vbytes bs => rfl

end

theorem zip_map_fst_snd_eq {α β : Type} :
    ∀ l : List (α × β), List.zip (l.map Prod.fst) (l.map Prod.snd) = l
  | [] => rfl
  | hd :: tl => by
    rw [List.map_cons, List.map_cons, List.zip_cons_cons,
      zip_map_fst_snd_eq tl]

set_option maxHeartbeats 2000000

mutual

theorem obj_roundtrip : ∀ v : PyObj, litv v = true → noEmptyDict v = true →
    ∃ n, obj_to_ast v = .ok n ∧ evalLit n = some v
  | .int i, _, _ => ⟨_, rfl, rfl⟩
  | .str s, _, _ => ⟨_, rfl, rfl⟩
  | .none, _, _ => ⟨_, rfl, rfl⟩
  | .tuple l, hl, hn => by
    obtain ⟨ns, hns, hev⟩ := obj_roundtrip_list l (by simpa [litv] using hl)
      (by simpa [noEmptyDict] using hn)
    refine ⟨.astNode "Tuple" [("elts", .vlist ns)], ?_, ?_⟩
    · rw [obj_to_ast, hns]; rfl
    · rw [evalLit, hev]
  | .dict ps, hl, hn => by
    have hlp : keysNodup ps = true ∧ litvPairs ps = true := by
      simpa [litv, Bool.and_eq_true] using hl
    have hnp : ps.isEmpty = false ∧ noEmptyDictPairs ps = true := by
      simpa [noEmptyDict, Bool.and_eq_true] using hn
    obtain ⟨qs, hqs, hks, hvs, hlen⟩ := obj_roundtrip_pairs ps hlp.2 hnp.2
    have hpsne : ps ≠ [] := by
      intro h0
      rw [h0] at hnp
      exact absurd hnp.1 (by decide)
    obtain ⟨q, qs', rfl⟩ : ∃ q qs', qs = q :: qs' := by
      cases qs with
      | nil =>
        rw [List.length_nil] at hlen
        cases ps with
        | nil => exact absurd rfl hpsne
        | cons p ps' => simp at hlen
      | cons q qs' => exact ⟨q, qs', rfl⟩
    refine ⟨.astNode "Dict"
      [("keys", .vlist ((q :: qs').map Prod.fst)),
       ("values", .vlist ((q :: qs').map Prod.snd))], ?_, ?_⟩
    · rw [obj_to_ast, hqs]; rfl
    · rw [evalLit, hks, hvs]
      simp [zip_map_fst_snd_eq]
  | .list l, hl, _ => Bool.noConfusion hl
  | .type name, hl, _ => Bool.noConfusion hl
  | .typingAlias, hl, _ => Bool.noConfusion hl
  | .float f, hl, _ => Bool.noConfusion hl
  | .bytes bs, hl, _ => Bool.noConfusion hl
  | .other d, hl, _ => Bool.noConfusion hl

theorem obj_roundtrip_list : ∀ l : List PyObj,
    litvList l = true → noEmptyDictList l = true →
    ∃ ns, objList l = .ok ns ∧ evalLitList ns = some l
  | [], _, _ => ⟨[], rfl, rfl⟩
  | x :: xs, hl, hn => by
    have hlp : litv x = true ∧ litvList xs = true := by
      simpa [litvList, Bool.and_eq_true] using hl
    have hnp : noEmptyDict x = true ∧ noEmptyDictList xs = true := by
      simpa [noEmptyDictList, Bool.and_eq_true] using hn
    obtain ⟨n, hx, hevx⟩ := obj_roundtrip x hlp.1 hnp.1
    obtain ⟨ns, hxs, hevxs⟩ := obj_roundtrip_list xs hlp.2 hnp.2
    refine ⟨n :: ns, ?_, ?_⟩
    · rw [objList, hx, hxs]; rfl
    · rw [evalLitList, hevx, hevxs]

theorem obj_roundtrip_pairs : ∀ ps : List (PyObj × PyObj),
    litvPairs ps = true → noEmptyDictPairs ps = true →
    ∃ qs, objPairs ps = .ok qs ∧
      evalLitList (qs.map Prod.fst) = some (ps.map Prod.fst) ∧
      evalLitList (qs.map Prod.snd) = some (ps.map Prod.snd) ∧
      qs.length = ps.length
  | [], _, _ => ⟨[], rfl, rfl, rfl, rfl⟩
  | (a, b) :: rest, hl, hn => by
    have hlp : litv a = true ∧ litv b = true ∧ litvPairs rest = true := by
      simpa [litvPairs, Bool.and_eq_true, and_assoc] using hl
    have hnp : noEmptyDict a = true ∧ noEmptyDict b = true ∧
        noEmptyDictPairs rest = true := by
      simpa [noEmptyDictPairs, Bool.and_eq_true, and_assoc] using hn
    obtain ⟨ka, hka, hevka⟩ := obj_roundtrip a hlp.1 hnp.1
    obtain ⟨vb, hvb, hevvb⟩ := obj_roundtrip b hlp.2.1 hnp.2.1
    obtain ⟨qs, hqs, hks, hvs, hlen⟩ := obj_roundtrip_pairs rest hlp.2.2 hnp.2.2
    refine ⟨(ka, vb) :: qs, ?_, ?_, ?_, ?_⟩
    · rw [objPairs, hka, hvb, hqs]; rfl
    · rw [List.map_cons, List.map_cons, evalLitList, hevka, hks]
    · rw [List.map_cons, List.map_cons, evalLitList, hevvb, hvs]
    · rw [List.length_cons, List.length_cons, hlen]

end

mutual

theorem obj_ok_or_conv : ∀ v : PyObj, noEmptyDict v = true →
    (∃ n, obj_to_ast v = .ok n) ∨
      obj_to_ast v = .error .objConversionException
  | .tuple l, h => by
    rcases obj_list_ok_or_conv l (by simpa [noEmptyDict] using h) with
      ⟨ns, hok⟩ | herr
    · refine Or.inl ⟨.astNode "Tuple" [("elts", .vlist ns)], ?_⟩
      rw [obj_to_ast, hok]; rfl
    · refine Or.inr ?_
      rw [obj_to_ast, herr]; rfl
  | .dict ps, h => by
    have hp : ps.isEmpty = false ∧ noEmptyDictPairs ps = true := by
      simpa [noEmptyDict, Bool.and_eq_true] using h
    rcases obj_pairs_ok_or_conv ps hp.2 with ⟨qs, hok, hlen⟩ | herr
    · have hpsne : ps ≠ [] := by
        intro h0
        rw [h0] at hp
        exact absurd hp.1 (by decide)
      obtain ⟨q, qs', rfl⟩ : ∃ q qs', qs = q :: qs' := by
        cases qs with
        | nil =>
          rw [List.length_nil] at hlen
          cases ps with
          | nil => exact absurd rfl hpsne
          | cons p ps' => simp at hlen
        | cons q qs' => exact ⟨q, qs', rfl⟩
      refine Or.inl ⟨.astNode "Dict"
        [("keys", .vlist ((q :: qs').map Prod.fst)),
         ("values", .vlist ((q :: qs').map Prod.snd))], ?_⟩
      rw [obj_to_ast, hok]; rfl
    · refine Or.inr ?_
      rw [obj_to_ast, herr]; rfl
  | .list l, h => by
    rcases obj_list_ok_or_conv l (by simpa [noEmptyDict] using h) with
      ⟨ns, hok⟩ | herr
    · refine Or.inl ⟨.astNode "List" [("elts", .vlist ns)], ?_⟩
      rw [obj_to_ast, hok]; rfl
    · refine Or.inr ?_
      rw [obj_to_ast, herr]; rfl
  | .type name, _ => Or.inl ⟨_, rfl⟩
  | .int i, _ => Or.inl ⟨_, rfl⟩
  | .str s, _ => Or.inl ⟨_, rfl⟩
  | .none, _ => Or.inl ⟨_, rfl⟩
  | .typingAlias, _ => Or.inl ⟨_, rfl⟩
  | .float f, _ => by
    cases f with
    | posInf => exact Or.inl ⟨_, rfl⟩
    | negInf => exact Or.inl ⟨_, rfl⟩
    | finite => exact Or.inr rfl
  | .bytes bs, _ => Or.inl ⟨_, rfl⟩
  | .other d, _ => Or.inr rfl

theorem obj_list_ok_or_conv : ∀ l : List PyObj, noEmptyDictList l = true →
    (∃ ns, objList l = .ok ns) ∨
      objList l = .error .objConversionException
  | [], _ => Or.inl ⟨[], rfl⟩
  | x :: xs, h => by
    have hp : noEmptyDict x = true ∧ noEmptyDictList xs = true := by
      simpa [noEmptyDictList, Bool.and_eq_true] using h
    rcases obj_ok_or_conv x hp.1 with ⟨n, hok⟩ | herr
    · rcases obj_list_ok_or_conv xs hp.2 with ⟨ns, hoks⟩ | herrs
      · exact Or.inl ⟨n :: ns, by rw [objList, hok, hoks]; rfl⟩
      · exact Or.inr (by rw [objList, hok, herrs]; rfl)
    · exact Or.inr (by rw [objList, herr]; rfl)

theorem obj_pairs_ok_or_conv : ∀ ps : List (PyObj × PyObj),
    noEmptyDictPairs ps = true →
    (∃ qs, objPairs ps = .ok qs ∧ qs.length = ps.length) ∨
      objPairs ps = .error .objConversionException
  | [], _ => Or.inl ⟨[], rfl, rfl⟩
  | (a, b) :: rest, h => by
    have hp : noEmptyDict a = true ∧ noEmptyDict b = true ∧
        noEmptyDictPairs rest = true := by
      simpa [noEmptyDictPairs, Bool.and_eq_true, and_assoc] using h
    rcases obj_ok_or_conv a hp.1 with ⟨ka, hok⟩ | herr
    · rcases obj_ok_or_conv b hp.2.1 with ⟨vb, hokb⟩ | herrb
      · rcases obj_pairs_ok_or_conv rest hp.2.2 with ⟨qs, hoks, hlen⟩ | herrs
        · refine Or.inl ⟨(ka, vb) :: qs, ?_, ?_⟩
          · rw [objPairs, hok, hokb, hoks]; rfl
          · rw [List.length_cons, List.length_cons, hlen]
        · exact Or.inr (by rw [objPairs, hok, hokb, herrs]; rfl)
      · exact Or.inr (by rw [objPairs, hok, herrb]; rfl)
    · exact Or.inr (by rw [objPairs, herr]; rfl)

end

set_option maxHeartbeats 200000

set_option maxHeartbeats 2000000

theorem b64chr_spec : ∀ d, d < 64 →
    b64val (b64chr d) = some d ∧ ((b64chr d) == '=') = false := by decide

theorem b64val_pad : b64val '=' = Option.none := by decide

theorem b64rt : ∀ bs : List Nat, (∀ b ∈ bs, b < 256) →
    ((b64encodeChunks bs).filterMap b64val).length % 4 ≠ 1 ∧
    (((b64encodeChunks bs).filterMap b64val).length +
      (b64encodeChunks bs).countP (fun c => c == '=')) % 4 = 0 ∧
    dec4 ((b64encodeChunks bs).filterMap b64val) = bs
  | [], _ => ⟨by decide, by decide, rfl⟩
  | [b0], h => by
    have h0 : b0 < 256 := h b0 (by simp)
    have s0 := b64chr_spec (b0 / 4) (by omega)
    have s1 := b64chr_spec (b0 % 4 * 16) (by omega)
    have hfm : (b64encodeChunks [b0]).filterMap b64val = [b0 / 4, b0 % 4 * 16] := by
      simp [b64encodeChunks, List.filterMap_cons, s0.1, s1.1, b64val_pad]
    have hcp : (b64encodeChunks [b0]).countP (fun c => c == '=') = 2 := by
      simp [b64encodeChunks, List.countP_cons, s0.2, s1.2]
    rw [hfm, hcp]
    refine ⟨by simp, by simp, ?_⟩
    show [b0 / 4 * 4 + b0 % 4 * 16 / 16] = [b0]
    simp only [List.cons.injEq, and_true]
    omega
  | [b0, b1], h => by
    have h0 : b0 < 256 := h b0 (by simp)
    have h1 : b1 < 256 := h b1 (by simp)
    have s0 := b64chr_spec (b0 / 4) (by omega)
    have s1 := b64chr_spec (b0 % 4 * 16 + b1 / 16) (by omega)
    have s2 := b64chr_spec (b1 % 16 * 4) (by omega)
    have hfm : (b64encodeChunks [b0, b1]).filterMap b64val =
        [b0 / 4, b0 % 4 * 16 + b1 / 16, b1 % 16 * 4] := by
      simp [b64encodeChunks, List.filterMap_cons, s0.1, s1.1, s2.1, b64val_pad]
    have hcp : (b64encodeChunks [b0, b1]).countP (fun c => c == '=') = 1 := by
      simp [b64encodeChunks, List.countP_cons, s0.2, s1.2, s2.2]
    rw [hfm, hcp]
    refine ⟨by simp, by simp, ?_⟩
    show [b0 / 4 * 4 + (b0 % 4 * 16 + b1 / 16) / 16,
          (b0 % 4 * 16 + b1 / 16) % 16 * 16 + b1 % 16 * 4 / 4] = [b0, b1]
    simp only [List.cons.injEq, and_true]
    constructor <;> omega
  | b0 :: b1 :: b2 :: rest, h => by
    have h0 : b0 < 256 := h b0 (by simp)
    have h1 : b1 < 256 := h b1 (by simp)
    have h2 : b2 < 256 := h b2 (by simp)
    have hrest : ∀ b ∈ rest, b < 256 := fun b hb =>
      h b (by simp [hb])
    have s0 := b64chr_spec (b0 / 4) (by omega)
    have s1 := b64chr_spec (b0 % 4 * 16 + b1 / 16) (by omega)
    have s2 := b64chr_spec (b1 % 16 * 4 + b2 / 64) (by omega)
    have s3 := b64chr_spec (b2 % 64) (by omega)
    obtain ⟨ih1, ih2, ih3⟩ := b64rt rest hrest
    have hfm : (b64encodeChunks (b0 :: b1 :: b2 :: rest)).filterMap b64val =
        b0 / 4 :: (b0 % 4 * 16 + b1 / 16) :: (b1 % 16 * 4 + b2 / 64) ::
          b2 % 64 :: (b64encodeChunks rest).filterMap b64val := by
      rw [b64encodeChunks]
      simp [List.filterMap_cons, s0.1, s1.1, s2.1, s3.1]
    have hcp : (b64encodeChunks (b0 :: b1 :: b2 :: rest)).countP
        (fun c => c == '=') =
        (b64encodeChunks rest).countP (fun c => c == '=') := by
      rw [b64encodeChunks]
      simp [List.countP_cons, s0.2, s1.2, s2.2, s3.2]
    rw [hfm, hcp]
    refine ⟨?_, ?_, ?_⟩
    · simp only [List.length_cons]
      omega
    · simp only [List.length_cons]
      omega
    · rw [dec4, ih3]
      simp only [List.cons.injEq, and_true]
      refine ⟨by omega, by omega, by omega⟩

theorem b64_roundtrip : ∀ bs : List Nat, (∀ b ∈ bs, b < 256) →
    b64decode (b64encode bs) = .ok bs := by
  intro bs h
  obtain ⟨h1, h2, h3⟩ := b64rt bs h
  have hdata : (b64encode bs).data = b64encodeChunks bs := rfl
  unfold b64decode
  rw [hdata]
  rw [beq_eq_false_iff_ne.2 h1]
  have hc2 : ((((b64encodeChunks bs).filterMap b64val).length +
      (b64encodeChunks bs).countP (fun c => c == '=')) % 4 != 0) = false := by
    simp [bne, h2]
  rw [hc2]
  show Except.ok (dec4 ((b64encodeChunks bs).filterMap b64val)) = _
  rw [h3]

theorem char_toNat_valid (ch : Char) :
    ch.toNat < 55296 ∨ (57344 ≤ ch.toNat ∧ ch.toNat < 1114112) := by
  have hv := ch.valid
  simpa [UInt32.isValidChar, Nat.isValidChar, Char.toNat] using hv

theorem decode_encodeChars : ∀ cs : List Char,
    decodeChars (encodeChars cs) = .ok cs
  | [] => rfl
  | ch :: rest => by
    have hv' := char_toNat_valid ch
    have hn : ch.toNat / 65536 * 65536 + ch.toNat / 256 % 256 * 256 +
        ch.toNat % 256 = ch.toNat := by omega
    rw [encodeChars, decodeChars, hn, if_pos hv']
    rw [decode_encodeChars rest, Char.ofNat_toNat]

theorem encodeChars_lt : ∀ cs : List Char, ∀ b ∈ encodeChars cs, b < 256
  | [] => by intro b hb; simp [encodeChars] at hb
  | ch :: rest => by
    intro b hb
    have hv : ch.toNat < 1114112 := by
      have := char_toNat_valid ch
      omega
    rw [encodeChars] at hb
    rcases List.mem_cons.1 hb with h1 | hb
    · omega
    rcases List.mem_cons.1 hb with h2 | hb
    · omega
    rcases List.mem_cons.1 hb with h3 | hb
    · omega
    exact encodeChars_lt rest b hb

theorem pickleDumps_lt (c : FunctionComment) :
    ∀ b ∈ pickleDumps c, b < 256 := by
  intro b hb
  rw [pickleDumps] at hb
  rcases List.mem_cons.1 hb with h1 | hb
  · subst h1
    cases c.header <;> simp
  · exact encodeChars_lt c.code.data b hb

theorem pickle_roundtrip : ∀ c : FunctionComment,
    pickleLoads (pickleDumps c) = .ok c := by
  intro c
  obtain ⟨⟨cdata⟩, hdr⟩ := c
  cases hdr
  · show pickleLoads (0 :: encodeChars cdata) = _
    rw [pickleLoads, if_pos (by decide : (((0:Nat) == 0) || ((0:Nat) == 1)) = true),
      decode_encodeChars cdata]
    rfl
  · show pickleLoads (1 :: encodeChars cdata) = _
    rw [pickleLoads, if_pos (by decide : (((1:Nat) == 0) || ((1:Nat) == 1)) = true),
      decode_encodeChars cdata]
    rfl

theorem comment_string_roundtrip (r : FunctionComment) :
    Comment.from_str (comment_string r) = .ok (some r) := by
  have hpre : COMMENT_MARKER.data.isPrefixOf (comment_string r).data = true := by
    rw [comment_string, String.data_append]
    exact List.isPrefixOf_iff_prefix.2 (List.prefix_append _ _)
  unfold Comment.from_str
  rw [if_pos hpre]
  have hdrop : (comment_string r).data.drop COMMENT_MARKER.data.length =
      (b64encode (pickleDumps r)).data := by
    rw [comment_string, String.data_append, List.drop_left]
  rw [hdrop]
  have hmk : String.mk (b64encode (pickleDumps r)).data =
      b64encode (pickleDumps r) := rfl
  rw [hmk, b64_roundtrip (pickleDumps r) (pickleDumps_lt r)]
  show (match pickleLoads (pickleDumps r) with
    | Except.error e => Except.error e
    | Except.ok c => Except.ok (some c)) = Except.ok (some r)
  rw [pickle_roundtrip r]

theorem compareList_prefix : ∀ (l1 l2 : List Value), wfNamesList l1 = true →
    compareList l1 (l1 ++ l2) = true
  | [], l2, _ => by cases l2 <;> rfl
  | x :: xs, l2, h => by
    have hp : wfNames x = true ∧ wfNamesList xs = true := by
      simpa [wfNamesList, Bool.and_eq_true] using h
    rw [List.cons_append, compareList, Bool.and_eq_true]
    exact ⟨compare_ast_refl x hp.1, compareList_prefix xs l2 hp.2⟩

/-! ## The claims -/

/-- C1 (counterexample): a `ClassTarget` built for class `C` does not match a
call site whose resolved value is a strict subclass `D` of `C` (constructor
shape), nor one whose resolved value is a bound method with a receiver of
class `D` (bound-method shape): the code tests
`issubclass(self.target, obj)`, the opposite direction. -/
theorem classtarget_subclass_counterexample :
    ClassTarget.should_inline (fun _ => Option.none) ⟨"C", ["C"]⟩
      (.nameNode "D") (.cls ⟨"D", ["D", "C"]⟩) = .ok false ∧
    ClassTarget.should_inline (fun _ => Option.none) ⟨"C", ["C"]⟩
      (.nameNode "m") (.boundMethod 0 ⟨"D", ["D", "C"]⟩) = .ok false := by
  constructor <;> rfl

/-- C1 (amended): a `ClassTarget` matches the constructor-call shape exactly
when the resolved value is a class occurring in the target's MRO — the target
itself or one of its superclasses — and matches the bound-method shape
exactly when the receiver's class occurs in the target's MRO. -/
theorem classtarget_superclass_match (target e : PyClass)
    (peval : EvalArg → Option RtValue) (code : CstExpr) (fid : Nat)
    (h : target.mro.contains e.name = true) :
    ClassTarget.should_inline peval target code (.cls e) = .ok true ∧
    ClassTarget.should_inline peval target code (.boundMethod fid e) = .ok true := by
  constructor
  · cases hpe : pyEqRt target (.cls e)
    · simp [ClassTarget.should_inline, hpe, tryBool, issubclassRt]
      exact Or.inl (by simpa [List.contains, List.elem_iff] using h)
    · simp [ClassTarget.should_inline, hpe, tryBool]
      exact Or.inl rfl
  · simp [ClassTarget.should_inline, pyEqRt, tryBool, issubclassRt]
    exact Or.inl (by simpa [List.contains, List.elem_iff] using h)

/-- C1 (witness): the amended statement at a concrete pair of classes, the
target `D` being a subclass of the resolved class `C`. -/
theorem classtarget_superclass_match_witness :
    ClassTarget.should_inline (fun _ => Option.none) ⟨"D", ["D", "C"]⟩
      .otherNode (.cls ⟨"C", ["C"]⟩) = .ok true ∧
    ClassTarget.should_inline (fun _ => Option.none) ⟨"D", ["D", "C"]⟩
      .otherNode (.boundMethod 0 ⟨"C", ["C"]⟩) = .ok true :=
  classtarget_superclass_match ⟨"D", ["D", "C"]⟩ ⟨"C", ["C"]⟩
    (fun _ => Option.none) .otherNode 0 (by decide)

/-- C2 (counterexample): `ModuleTarget.should_inline` raises rather than
returning false when the resolved value has no defining module
(`inspect.getmodule` returns `None` and `module.__name__` raises
`AttributeError`), refuting the claim that every variant maps absent
contextual information to a false verdict. -/
theorem should_inline_total_counterexample :
    ModuleTarget.should_inline (fun _ => Option.none) "a.b" .otherNode .otherVal
      = .error .attributeError := rfl

/-- C2 (amended): `FunctionTarget`, `CursorTarget` and `ClassTarget` never
raise for any call-site node and resolved value, and `ModuleTarget` never
raises whenever the resolved value has a defining module; only a value with
no defining module makes `ModuleTarget.should_inline` raise. -/
theorem should_inline_total_amended :
    (∀ (getmodule : RtValue → Option String) (target : String)
        (code : CstExpr) (obj : RtValue) (m : String), getmodule obj = some m →
      ∃ b, ModuleTarget.should_inline getmodule target code obj = .ok b) ∧
    (∀ (target : Nat) (code : CstExpr) (obj : RtValue),
      ∃ b, FunctionTarget.should_inline target code obj = .ok b) ∧
    (∀ (getPos : CstExpr → Option Span) (t : Nat × Nat) (code : CstExpr)
        (obj : RtValue),
      ∃ b, CursorTarget.should_inline getPos t code obj = .ok b) ∧
    (∀ (peval : EvalArg → Option RtValue) (target : PyClass) (code : CstExpr)
        (obj : RtValue),
      ∃ b, ClassTarget.should_inline peval target code obj = .ok b) := by
  refine ⟨?_, ?_, ?_, ?_⟩
  · intro g t c o m hm
    refine ⟨(List.take (t.splitOn ".").length (m.splitOn ".") ==
      t.splitOn "."), ?_⟩
    unfold ModuleTarget.should_inline
    rw [hm]
  · intro t c o
    exact ⟨_, rfl⟩
  · intro gp t c o
    cases hpos : gp c with
    | none =>
      refine ⟨false, ?_⟩
      unfold CursorTarget.should_inline
      rw [hpos]
    | some pos =>
      refine ⟨decide (pos.startLine ≤ t.1 ∧ t.1 ≤ pos.endLine ∧
        pos.startCol ≤ t.2 ∧ t.2 ≤ pos.endCol), ?_⟩
      unfold CursorTarget.should_inline
      rw [hpos]
  · intro pe t c o
    exact ⟨_, rfl⟩

/-- C2 (witness): the amended statement at a concrete module target whose
resolved value does have a defining module. -/
theorem should_inline_total_amended_witness :
    ∃ b, ModuleTarget.should_inline (fun _ => some "a.b.c") "a.b" .otherNode
      .otherVal = .ok b :=
  should_inline_total_amended.1 (fun _ => some "a.b.c") "a.b" .otherNode
    .otherVal "a.b.c" rfl

/-- C3 (counterexample): `Comment.from_str` raises on a string literal that
carries the marker followed by a corrupted payload — base64-decoding `"a"`
raises `binascii.Error` and no handler is present — refuting the claim that
decode never raises. -/
theorem from_str_corrupted_counterexample :
    Comment.from_str "__inliner: a" = .error .binasciiError := rfl

/-- C3 (amended): `Comment.from_str` returns `None` (and never raises) on
every string literal that lacks the marker prefix; with the marker present
but a corrupted payload after it, from_str raises the decoding error instead
of returning `None`. -/
theorem from_str_no_raise_amended :
    (∀ s : String, COMMENT_MARKER.data.isPrefixOf s.data = false →
      Comment.from_str s = .ok Option.none) ∧
    Comment.from_str "__inliner: a" = .error .binasciiError := by
  constructor
  · intro s h
    simp [Comment.from_str, h]
  · rfl

/-- C3 (witness): the amended statement at a concrete ordinary string
literal. -/
theorem from_str_no_raise_amended_witness :
    Comment.from_str "hello world" = .ok Option.none :=
  from_str_no_raise_amended.1 "hello world" (by decide)

/-- C4 (counterexample): structural equality does not require equal lengths
for sequence fields: `zip` truncates, so a `Module` whose body is a strict
prefix of another's compares equal to it, in both argument orders. -/
theorem compare_ast_prefix_counterexample :
    compare_ast
      (.astNode "Module" [("body", .vlist [.astNode "Num" [("n", .vint 1)]])])
      (.astNode "Module" [("body", .vlist
        [.astNode "Num" [("n", .vint 1)], .astNode "Num" [("n", .vint 2)]])])
      = true ∧
    compare_ast
      (.astNode "Module" [("body", .vlist
        [.astNode "Num" [("n", .vint 1)], .astNode "Num" [("n", .vint 2)]])])
      (.astNode "Module" [("body", .vlist [.astNode "Num" [("n", .vint 1)]])])
      = true := by
  constructor <;> rfl

/-- C4 (amended): for ordered-sequence-valued fields `compare_ast` compares
element-wise only over the zipped common prefix, so a node whose child list
is a strict prefix of another's IS structurally equal to it whenever the
common elements match. -/
theorem compare_ast_prefix_equal_amended (k n : String) (l1 l2 : List Value)
    (h : wfNamesList l1 = true) :
    compare_ast (.astNode k [(n, .vlist l1)])
      (.astNode k [(n, .vlist (l1 ++ l2))]) = true := by
  have hcl := compareList_prefix l1 l2 h
  show ((k == k) && compareFields [(n, .vlist l1)] [(n, .vlist (l1 ++ l2))])
    = true
  rw [Bool.and_eq_true]
  refine ⟨by simp, ?_⟩
  rw [compareFields, Bool.and_eq_true]
  refine ⟨?_, rfl⟩
  by_cases hskip : skipNames.contains n = true
  · rw [hskip, Bool.true_or]
  · have hlk : lookupField [(n, Value.vlist (l1 ++ l2))] n =
        some (Value.vlist (l1 ++ l2)) := by
      rw [lookupField, if_pos (by simp : (n == n) = true)]
    rw [hlk]
    show (skipNames.contains n || compareList l1 (l1 ++ l2)) = true
    rw [hcl, Bool.or_true]

/-- C4 (witness): the amended statement at a concrete one-element prefix of a
two-element body. -/
theorem compare_ast_prefix_equal_amended_witness :
    compare_ast
      (.astNode "Module" [("body", .vlist [.astNode "Num" [("n", .vint 1)]])])
      (.astNode "Module" [("body", .vlist
        ([.astNode "Num" [("n", .vint 1)]] ++ [.astNode "Num" [("n", .vint 2)]]))])
      = true :=
  compare_ast_prefix_equal_amended "Module" "body"
    [.astNode "Num" [("n", .vint 1)]] [.astNode "Num" [("n", .vint 2)]]
    (by decide)

/-- C5 (counterexample): the empty mapping is literalizable in the claim's
sense, yet `obj_to_ast` on it raises `ValueError` (the `k, v = unzip([])`
unpacking), refuting the claim that `toLiteral` succeeds on every such
value. -/
theorem obj_to_ast_empty_dict_counterexample :
    litv (.dict []) = true ∧ obj_to_ast (.dict []) = .error .valueError :=
  ⟨rfl, rfl⟩

/-- C5 (amended): for every literalizable value in
{integers, strings, None, tuples, mappings} that contains no EMPTY mapping,
`obj_to_ast` succeeds, and rendering the node to text, re-parsing it and
evaluating it yields the original value. -/
theorem obj_to_ast_roundtrip_amended (v : PyObj) (hl : litv v = true)
    (hn : noEmptyDict v = true) :
    ∃ n, obj_to_ast v = .ok n ∧ evalLit n = some v :=
  obj_roundtrip v hl hn

/-- C5 (witness): the amended round-trip at a concrete nested value with a
non-empty mapping. -/
theorem obj_to_ast_roundtrip_amended_witness :
    ∃ n, obj_to_ast (.tuple [.int 1, .str "ab", PyObj.none,
        .dict [(.int 2, .str "x"), (.str "k", PyObj.none)]]) = .ok n ∧
      evalLit n = some (.tuple [.int 1, .str "ab", PyObj.none,
        .dict [(.int 2, .str "x"), (.str "k", PyObj.none)]]) :=
  obj_to_ast_roundtrip_amended _ (by decide) (by decide)

/-- C6 (counterexample): `can_convert_obj_to_ast` itself fails on the empty
mapping: `obj_to_ast` raises `ValueError`, which is not the caught
`ObjConversionException`, refuting the claim that no input makes the
predicate fail. -/
theorem can_convert_empty_dict_counterexample :
    can_convert_obj_to_ast (.dict []) = .error .valueError := rfl

/-- C6 (amended): on every value containing no empty mapping,
`can_convert_obj_to_ast` returns a boolean without raising, returning true
exactly when `obj_to_ast` succeeds and false exactly when `obj_to_ast`
raises `ObjConversionException`; only the `ValueError` from an empty mapping
escapes it. -/
theorem can_convert_agreement_amended (v : PyObj) (h : noEmptyDict v = true) :
    (∃ b, can_convert_obj_to_ast v = .ok b) ∧
    (can_convert_obj_to_ast v = .ok true ↔ ∃ n, obj_to_ast v = .ok n) ∧
    (can_convert_obj_to_ast v = .ok false ↔
      obj_to_ast v = .error .objConversionException) := by
  rcases obj_ok_or_conv v h with ⟨n, hok⟩ | herr
  · exact ⟨⟨true, by simp [can_convert_obj_to_ast, hok]⟩,
      by simp [can_convert_obj_to_ast, hok],
      by simp [can_convert_obj_to_ast, hok]⟩
  · exact ⟨⟨false, by simp [can_convert_obj_to_ast, herr]⟩,
      by simp [can_convert_obj_to_ast, herr],
      by simp [can_convert_obj_to_ast, herr]⟩

/-- C6 (witness): the amended statement at a concrete unconvertible value (a
function-like object), on which the predicate returns false. -/
theorem can_convert_agreement_amended_witness :
    (∃ b, can_convert_obj_to_ast (.other "lambda") = .ok b) ∧
    (can_convert_obj_to_ast (.other "lambda") = .ok true ↔
      ∃ n, obj_to_ast (.other "lambda") = .ok n) ∧
    (can_convert_obj_to_ast (.other "lambda") = .ok false ↔
      obj_to_ast (.other "lambda") = .error .objConversionException) :=
  can_convert_agreement_amended (.other "lambda") (by decide)

/-- C7: the provenance-comment codec round-trips: decoding the text of the
string literal built by `Comment.to_stmt` for any record returns that record
field-for-field, and decoding an ordinary string literal without the marker
(e.g. `"hello world"`) returns `None`. -/
theorem comment_roundtrip :
    (∀ r : FunctionComment,
      Comment.from_str (comment_string r) = .ok (some r)) ∧
    Comment.from_str "hello world" = .ok Option.none :=
  ⟨comment_string_roundtrip, rfl⟩

/-- C8: the effect-free classifier is conservative: any fragment whose
visited region (which excludes nested `FunctionDef`s, neither entered nor
counted) contains a node kind outside the whitelist or a call whose callee
matches no whitelisted pure callable gets verdict false, and any fragment
built solely from whitelisted node kinds (hence with no calls) gets verdict
true. -/
theorem is_effect_free_conservative :
    (∀ v : Value, containsBad v = true → is_effect_free v = false) ∧
    (∀ v : Value, allWhitelisted v = true → is_effect_free v = true) := by
  constructor
  · intro v h
    unfold containsBad at h
    unfold is_effect_free
    rw [efChild_not_bad v, h]
    rfl
  · intro v h
    unfold is_effect_free
    exact allWL_ef v h

/-- C8 (witness): the conservativity statement at a concrete impure fragment
(an assignment) and a concrete pure fragment (a tuple of literals). -/
theorem is_effect_free_conservative_witness :
    is_effect_free (.astNode "Assign"
      [("targets", .vlist
          [.astNode "Name" [("id", .vstr "x"), ("ctx", .astNode "Store" [])]]),
       ("value", .astNode "Num" [("n", .vint 1)])]) = false ∧
    is_effect_free (.astNode "Tuple"
      [("elts", .vlist [.astNode "Num" [("n", .vint 1)],
         .astNode "Str" [("s", .vstr "x")]]),
       ("ctx", .astNode "Load" [])]) = true :=
  ⟨is_effect_free_conservative.1 _ (by decide),
   is_effect_free_conservative.2 _ (by decide)⟩

/-- C9: structural equality is reflexive on every well-formed tree, symmetric
on trees built from genuine `ast`-class nodes, and invariant under arbitrary
perturbation of the position-metadata attributes (in both argument
orders). -/
theorem compare_ast_equivalence :
    (∀ v : Value, wfNames v = true → compare_ast v v = true) ∧
    (∀ a b : Value, wfShape a = true → wfShape b = true →
      compare_ast a b = compare_ast b a) ∧
    (∀ (g : String → Value → Value) (v : Value), wfNames v = true →
      compare_ast v (perturbMeta g v) = true ∧
        compare_ast (perturbMeta g v) v = true) :=
  ⟨compare_ast_refl, compare_ast_symm, perturb_both⟩

/-- C9 (witness): reflexivity, symmetry and position-invariance at concrete
parsed-shaped nodes, with a perturbation rewriting every position attribute. -/
theorem compare_ast_equivalence_witness :
    compare_ast (.astNode "Num" [("n", .vint 3), ("lineno", .vint 1)])
      (.astNode "Num" [("n", .vint 3), ("lineno", .vint 1)]) = true ∧
    (compare_ast (parsedNameExpr "str")
      (.astNode "Name" [("id", .vstr "str"), ("ctx", .astNode "Load" []),
        ("lineno", .vint 5), ("col_offset", .vint 2)]) =
     compare_ast (.astNode "Name" [("id", .vstr "str"),
        ("ctx", .astNode "Load" []), ("lineno", .vint 5),
        ("col_offset", .vint 2)]) (parsedNameExpr "str")) ∧
    (compare_ast (.astNode "Num" [("n", .vint 3), ("lineno", .vint 1)])
      (perturbMeta (fun _ _ => .vint 99)
        (.astNode "Num" [("n", .vint 3), ("lineno", .vint 1)])) = true ∧
     compare_ast (perturbMeta (fun _ _ => .vint 99)
        (.astNode "Num" [("n", .vint 3), ("lineno", .vint 1)]))
      (.astNode "Num" [("n", .vint 3), ("lineno", .vint 1)]) = true) :=
  ⟨compare_ast_equivalence.1 _ (by decide),
   compare_ast_equivalence.2.1 _ _ (by decide) (by decide),
   compare_ast_equivalence.2.2 _ _ (by decide)⟩

/-- C10: `obj_to_ast` maps negative infinity to the very same parsed call
expression `float("inf")` as positive infinity, and that expression
evaluates to POSITIVE infinity — the sign of negative infinity is lost. -/
theorem neg_infinity_literalized :
    obj_to_ast (.float .negInf) = .ok floatInfExpr ∧
    obj_to_ast (.float .posInf) = .ok floatInfExpr ∧
    evalLit floatInfExpr = some (.float .posInf) :=
  ⟨rfl, rfl, rfl⟩
